import Mathlib

/-!
Verification of the dRep clustering engine (`drep_modules/d_cluster.py`).

The Python module is shallowly embedded below.  Pandas data frames become
lists of records, `networkx` graphs become a `Graph` structure holding the
node list (in insertion order) and the edge list, floats become rationals,
and Python exceptions become an explicit `Except PyErr` result.  External
tools (mash, nucmer) are modelled by their observable outputs: the mash
table `Mdb` and, for each coarse cluster id, the list of delta files found
in that cluster's output directory.
-/

namespace DCluster

/-- Python-level exceptions raised by the embedded code paths. -/
inductive PyErr where
  | keyError (k : String)
  | zeroDivisionError
  | valueError
  | indexError
  | nameError (n : String)
  | unboundLocal (n : String)
  deriving Repr, DecidableEq

/-- `pandas.Series.unique`: first occurrence of each element, in order of
first appearance. -/
def uniqueF {α : Type} [DecidableEq α] : List α → List α
  | [] => []
  | a :: l => a :: (uniqueF l).filter (fun b => decide (b ≠ a))

theorem mem_uniqueF {α : Type} [DecidableEq α] {x : α} {l : List α} :
    x ∈ uniqueF l ↔ x ∈ l := by
  induction l with
  | nil => simp [uniqueF]
  | cons a l ih =>
    simp only [uniqueF, List.mem_cons, List.mem_filter, decide_eq_true_eq]
    constructor
    · rintro (rfl | ⟨h, _⟩)
      · exact Or.inl rfl
      · exact Or.inr (ih.mp h)
    · rintro (rfl | h)
      · exact Or.inl rfl
      · by_cases hx : x = a
        · exact Or.inl hx
        · exact Or.inr ⟨ih.mpr h, hx⟩

theorem nodup_uniqueF {α : Type} [DecidableEq α] {l : List α} : (uniqueF l).Nodup := by
  induction l with
  | nil => simp [uniqueF]
  | cons a l ih =>
    simp only [uniqueF, List.nodup_cons]
    refine ⟨fun hmem => ?_, ih.filter _⟩
    have := (List.mem_filter.mp hmem).2
    simp at this

/-- A `networkx.Graph` as built by this module: nodes in insertion order,
plus the list of (directed, as-inserted) edge endpoint pairs. -/
structure Graph where
  nodes : List String
  edges : List (String × String)
  deriving Repr, DecidableEq

/-- `networkx.Graph.add_node`: no-op when the node exists. -/
def Graph.addNode (G : Graph) (v : String) : Graph :=
  if v ∈ G.nodes then G else { G with nodes := G.nodes ++ [v] }

/-- `networkx.Graph.add_edge`: missing endpoints are silently created. -/
def Graph.add_edge (G : Graph) (u v : String) : Graph :=
  let G1 := (G.addNode u).addNode v
  { G1 with edges := G1.edges ++ [(u, v)] }

theorem addNode_edges (G : Graph) (v : String) : (G.addNode v).edges = G.edges := by
  unfold Graph.addNode; split <;> rfl

theorem add_edge_edges (G : Graph) (u v : String) :
    (G.add_edge u v).edges = G.edges ++ [(u, v)] := by
  show ((G.addNode u).addNode v).edges ++ [(u, v)] = G.edges ++ [(u, v)]
  rw [addNode_edges, addNode_edges]

theorem mem_addNode {G : Graph} {v x : String} :
    x ∈ (G.addNode v).nodes ↔ x ∈ G.nodes ∨ x = v := by
  unfold Graph.addNode
  by_cases h : v ∈ G.nodes
  · rw [if_pos h]
    exact ⟨Or.inl, fun hx => hx.elim id (fun e => e ▸ h)⟩
  · rw [if_neg h]
    simp

theorem mem_add_edge {G : Graph} {u v x : String} :
    x ∈ (G.add_edge u v).nodes ↔ x ∈ G.nodes ∨ x = u ∨ x = v := by
  show x ∈ ((G.addNode u).addNode v).nodes ↔ _
  rw [mem_addNode, mem_addNode]
  tauto

theorem nodup_addNode {G : Graph} (h : G.nodes.Nodup) (v : String) :
    (G.addNode v).nodes.Nodup := by
  unfold Graph.addNode
  by_cases hv : v ∈ G.nodes
  · rw [if_pos hv]; exact h
  · rw [if_neg hv]
    simpa [List.nodup_append] using ⟨h, hv⟩

theorem nodup_add_edge {G : Graph} (h : G.nodes.Nodup) (u v : String) :
    (G.add_edge u v).nodes.Nodup :=
  nodup_addNode (nodup_addNode h u) v

/-- Folding `add_edge` over a pair list (the shared shape of the two graph
builders once their row filters are applied). -/
def buildGraph (ps : List (String × String)) (G0 : Graph) : Graph :=
  ps.foldl (fun G p => G.add_edge p.1 p.2) G0

theorem buildGraph_edges (ps : List (String × String)) (G0 : Graph) :
    (buildGraph ps G0).edges = G0.edges ++ ps := by
  induction ps generalizing G0 with
  | nil => simp [buildGraph]
  | cons p ps ih =>
    show (buildGraph ps (G0.add_edge p.1 p.2)).edges = _
    rw [ih, add_edge_edges, List.append_assoc]
    rfl

theorem buildGraph_mem_nodes {ps : List (String × String)} {G0 : Graph} {x : String} :
    x ∈ (buildGraph ps G0).nodes ↔ x ∈ G0.nodes ∨ ∃ p ∈ ps, x = p.1 ∨ x = p.2 := by
  induction ps generalizing G0 with
  | nil => simp [buildGraph]
  | cons p ps ih =>
    show x ∈ (buildGraph ps (G0.add_edge p.1 p.2)).nodes ↔ _
    rw [ih]
    simp only [mem_add_edge, List.mem_cons]
    constructor
    · rintro ((h | h | h) | ⟨q, hq, hx⟩)
      · exact Or.inl h
      · exact Or.inr ⟨p, Or.inl rfl, Or.inl h⟩
      · exact Or.inr ⟨p, Or.inl rfl, Or.inr h⟩
      · exact Or.inr ⟨q, Or.inr hq, hx⟩
    · rintro (h | ⟨q, (rfl | hq), hx⟩)
      · exact Or.inl (Or.inl h)
      · exact Or.inl (Or.inr hx)
      · exact Or.inr ⟨q, hq, hx⟩

theorem buildGraph_nodup {ps : List (String × String)} {G0 : Graph}
    (h : G0.nodes.Nodup) : (buildGraph ps G0).nodes.Nodup := by
  induction ps generalizing G0 with
  | nil => exact h
  | cons p ps ih => exact ih (nodup_add_edge h p.1 p.2)

/-- A row of the mash table `Mdb` (columns used by the clustering engine). -/
structure MRow where
  genome1 : String
  genome2 : String
  similarity : Rat
  deriving Repr, DecidableEq

/-- A row of the ANIn table produced by `process_deltadir`. -/
structure NRow where
  querry : String
  reference : String
  alignment_length : Int
  similarity_errors : Int
  ref_coverage : Rat
  querry_coverage : Rat
  ani : Rat
  deriving Repr, DecidableEq

/-- `make_graph(df, threshold)`: seed nodes from `df['genome1'].unique()`,
then add an edge for every row with `similarity > threshold`. -/
def make_graph (df : List MRow) (threshold : Rat) : Graph :=
  df.foldl
    (fun G row =>
      if row.similarity > threshold then G.add_edge row.genome1 row.genome2 else G)
    ⟨uniqueF (df.map MRow.genome1), []⟩

/-- `make_graph_anin(df, cov_thresh, anin_thresh)`: seed nodes from
`df['reference'].unique()`, then add an edge for every row with
`ref_coverage > cov_thresh` and `ani > anin_thresh`. -/
def make_graph_anin (df : List NRow) (cov_thresh : Rat) (anin_thresh : Rat) : Graph :=
  df.foldl
    (fun G row =>
      if row.ref_coverage > cov_thresh ∧ row.ani > anin_thresh then
        G.add_edge row.reference row.querry
      else G)
    ⟨uniqueF (df.map NRow.reference), []⟩

/-- The qualifying rows of the mash table at a given threshold. -/
def mashPairs (df : List MRow) (threshold : Rat) : List (String × String) :=
  (df.filter (fun r => decide (r.similarity > threshold))).map
    (fun r => (r.genome1, r.genome2))

/-- The qualifying rows of an ANIn table at given thresholds. -/
def aninPairs (df : List NRow) (cov_thresh anin_thresh : Rat) : List (String × String) :=
  (df.filter (fun r => decide (r.ref_coverage > cov_thresh ∧ r.ani > anin_thresh))).map
    (fun r => (r.reference, r.querry))

theorem make_graph_eq (df : List MRow) (t : Rat) :
    make_graph df t = buildGraph (mashPairs df t) ⟨uniqueF (df.map MRow.genome1), []⟩ := by
  show df.foldl _ _ = _
  generalize (⟨uniqueF (df.map MRow.genome1), []⟩ : Graph) = G0
  induction df generalizing G0 with
  | nil => rfl
  | cons r df ih =>
    by_cases h : r.similarity > t
    · simp only [List.foldl_cons, mashPairs, List.filter_cons, decide_eq_true h, if_pos h]
      exact ih _
    · simp only [List.foldl_cons, mashPairs, List.filter_cons, if_neg h,
        decide_eq_false h]
      exact ih _

theorem make_graph_anin_eq (df : List NRow) (c a : Rat) :
    make_graph_anin df c a
      = buildGraph (aninPairs df c a) ⟨uniqueF (df.map NRow.reference), []⟩ := by
  show df.foldl _ _ = _
  generalize (⟨uniqueF (df.map NRow.reference), []⟩ : Graph) = G0
  induction df generalizing G0 with
  | nil => rfl
  | cons r df ih =>
    by_cases h : r.ref_coverage > c ∧ r.ani > a
    · simp only [List.foldl_cons, aninPairs, List.filter_cons, decide_eq_true h, if_pos h]
      exact ih _
    · simp only [List.foldl_cons, aninPairs, List.filter_cons, if_neg h,
        decide_eq_false h]
      exact ih _


/-! ### Connectivity: the semantics of `networkx` connected components

`Conn es a b` is the mathematical connectivity relation generated by the
edge list; `reach es u` computes the connected component of `u` by
saturating a one-step expansion, and is proved to coincide with `Conn`. -/

/-- The undirected edge relation of an edge list. -/
def edgeRel (es : List (String × String)) (a b : String) : Prop :=
  (a, b) ∈ es ∨ (b, a) ∈ es

theorem edgeRel_symm {es : List (String × String)} : Symmetric (edgeRel es) :=
  fun _ _ h => h.symm

/-- Connectivity: reflexive-transitive closure of the edge relation. -/
def Conn (es : List (String × String)) (a b : String) : Prop :=
  Relation.ReflTransGen (edgeRel es) a b

theorem Conn.refl {es : List (String × String)} {a : String} : Conn es a a :=
  Relation.ReflTransGen.refl

theorem Conn.symm {es : List (String × String)} {a b : String} (h : Conn es a b) :
    Conn es b a :=
  Relation.ReflTransGen.symmetric edgeRel_symm h

theorem Conn.trans {es : List (String × String)} {a b c : String}
    (h1 : Conn es a b) (h2 : Conn es b c) : Conn es a c :=
  Relation.ReflTransGen.trans h1 h2

theorem Conn.single {es : List (String × String)} {a b : String}
    (h : edgeRel es a b) : Conn es a b :=
  Relation.ReflTransGen.single h

theorem Conn.mono {es es' : List (String × String)}
    (hsub : ∀ a b, edgeRel es a b → edgeRel es' a b) {u v : String}
    (h : Conn es u v) : Conn es' u v :=
  Relation.ReflTransGen.mono hsub h

/-- Add `b` to the set when `a` is already there and `b` is not. -/
def condAdd (s : List String) (a b : String) : List String :=
  if a ∈ s ∧ b ∉ s then s ++ [b] else s

theorem condAdd_append (s : List String) (a b : String) :
    ∃ t, condAdd s a b = s ++ t := by
  unfold condAdd
  by_cases h : a ∈ s ∧ b ∉ s
  · rw [if_pos h]; exact ⟨[b], rfl⟩
  · rw [if_neg h]; exact ⟨[], by simp⟩

theorem mem_condAdd {s : List String} {a b x : String}
    (h : x ∈ condAdd s a b) : x ∈ s ∨ x = b := by
  unfold condAdd at h
  revert h
  by_cases h : a ∈ s ∧ b ∉ s
  · rw [if_pos h]
    intro hx
    rcases List.mem_append.mp hx with hx | hx
    · exact Or.inl hx
    · exact Or.inr (List.mem_singleton.mp hx)
  · rw [if_neg h]; exact Or.inl

theorem condAdd_nodup {s : List String} (hs : s.Nodup) (a b : String) :
    (condAdd s a b).Nodup := by
  unfold condAdd
  by_cases h : a ∈ s ∧ b ∉ s
  · rw [if_pos h]
    apply List.Nodup.append hs (List.nodup_singleton b)
    intro x hx hb
    rw [List.mem_singleton] at hb
    exact h.2 (hb ▸ hx)
  · rw [if_neg h]; exact hs

theorem condAdd_conn {E : List (String × String)} {u a b : String} {s : List String}
    (hconn : ∀ y ∈ s, Conn E u y) (hedge : edgeRel E a b) :
    ∀ x ∈ condAdd s a b, Conn E u x := by
  intro x hx
  unfold condAdd at hx
  revert hx
  by_cases h : a ∈ s ∧ b ∉ s
  · rw [if_pos h]
    intro hx
    rcases List.mem_append.mp hx with hx | hx
    · exact hconn x hx
    · rw [List.mem_singleton.mp hx]
      exact (hconn a h.1).trans (Conn.single hedge)
  · rw [if_neg h]
    exact hconn x

theorem condAdd_fix {s : List String} {a b : String}
    (h : condAdd s a b = s) (ha : a ∈ s) : b ∈ s := by
  by_contra hb
  unfold condAdd at h
  rw [if_pos ⟨ha, hb⟩] at h
  have := congrArg List.length h
  simp at this

/-- One edge-processing step of the saturation: each direction of the edge
can pull the missing endpoint into the set. -/
def stepE (s : List String) (e : String × String) : List String :=
  condAdd (condAdd s e.1 e.2) e.2 e.1

theorem stepE_append (s : List String) (e : String × String) :
    ∃ t, stepE s e = s ++ t := by
  obtain ⟨t1, h1⟩ := condAdd_append s e.1 e.2
  obtain ⟨t2, h2⟩ := condAdd_append (condAdd s e.1 e.2) e.2 e.1
  exact ⟨t1 ++ t2, by rw [stepE, h2, h1, List.append_assoc]⟩

theorem mem_stepE {s : List String} {e : String × String} {x : String}
    (h : x ∈ stepE s e) : x ∈ s ∨ x = e.1 ∨ x = e.2 := by
  rcases mem_condAdd h with h | h
  · rcases mem_condAdd h with h | h
    · exact Or.inl h
    · exact Or.inr (Or.inr h)
  · exact Or.inr (Or.inl h)

theorem stepE_nodup {s : List String} (hs : s.Nodup) (e : String × String) :
    (stepE s e).Nodup :=
  condAdd_nodup (condAdd_nodup hs e.1 e.2) e.2 e.1

theorem stepE_conn {E : List (String × String)} {u : String} {s : List String}
    {e : String × String} (hconn : ∀ y ∈ s, Conn E u y) (he : e ∈ E) :
    ∀ x ∈ stepE s e, Conn E u x :=
  condAdd_conn (condAdd_conn hconn (Or.inl he)) (Or.inr he)

theorem stepE_fix {s : List String} {e : String × String} (h : stepE s e = s) :
    (e.1 ∈ s → e.2 ∈ s) ∧ (e.2 ∈ s → e.1 ∈ s) := by
  obtain ⟨t1, h1⟩ := condAdd_append s e.1 e.2
  obtain ⟨t2, h2⟩ := condAdd_append (condAdd s e.1 e.2) e.2 e.1
  have hchain : s = s ++ t1 ++ t2 := by
    conv_lhs => rw [← h, stepE, h2, h1]
  have hlen := congrArg List.length hchain
  simp only [List.length_append] at hlen
  have ht1 : t1 = [] := List.eq_nil_of_length_eq_zero (by omega)
  have hfirst : condAdd s e.1 e.2 = s := by rw [h1, ht1, List.append_nil]
  have hsecond : condAdd s e.2 e.1 = s := by
    have := h
    rw [stepE, hfirst] at this
    exact this
  exact ⟨condAdd_fix hfirst, condAdd_fix hsecond⟩

/-- One saturation pass over the whole edge list. -/
def stepR (es : List (String × String)) (s : List String) : List String :=
  es.foldl stepE s

theorem stepR_append (es : List (String × String)) (s : List String) :
    ∃ t, stepR es s = s ++ t := by
  induction es generalizing s with
  | nil => exact ⟨[], by simp [stepR]⟩
  | cons e es ih =>
    obtain ⟨t1, h1⟩ := stepE_append s e
    obtain ⟨t2, h2⟩ := ih (stepE s e)
    refine ⟨t1 ++ t2, ?_⟩
    show stepR es (stepE s e) = _
    rw [h2, h1, List.append_assoc]

theorem stepR_subset {es : List (String × String)} {s : List String} {x : String}
    (h : x ∈ s) : x ∈ stepR es s := by
  obtain ⟨t, ht⟩ := stepR_append es s
  rw [ht]
  exact List.mem_append_left t h

theorem stepR_mem_src {es : List (String × String)} {s : List String} {x : String}
    (h : x ∈ stepR es s) : x ∈ s ∨ ∃ e ∈ es, x = e.1 ∨ x = e.2 := by
  induction es generalizing s with
  | nil => exact Or.inl h
  | cons e es ih =>
    rcases ih (s := stepE s e) h with h' | ⟨e', he', hx⟩
    · rcases mem_stepE h' with h'' | h'' | h''
      · exact Or.inl h''
      · exact Or.inr ⟨e, List.mem_cons_self e es, Or.inl h''⟩
      · exact Or.inr ⟨e, List.mem_cons_self e es, Or.inr h''⟩
    · exact Or.inr ⟨e', List.mem_cons_of_mem e he', hx⟩

theorem stepR_nodup {es : List (String × String)} {s : List String}
    (h : s.Nodup) : (stepR es s).Nodup := by
  induction es generalizing s with
  | nil => exact h
  | cons e es ih => exact ih (stepE_nodup h e)

theorem stepR_sound {E es : List (String × String)} {u : String}
    (hsub : ∀ e ∈ es, e ∈ E) {s : List String}
    (h : ∀ y ∈ s, Conn E u y) : ∀ x ∈ stepR es s, Conn E u x := by
  induction es generalizing s with
  | nil => exact h
  | cons e es ih =>
    exact ih (fun e' he' => hsub e' (List.mem_cons_of_mem e he'))
      (stepE_conn h (hsub e (List.mem_cons_self e es)))

theorem stepR_fix_closed {es : List (String × String)} {s : List String}
    (hfix : stepR es s = s) :
    ∀ e ∈ es, (e.1 ∈ s → e.2 ∈ s) ∧ (e.2 ∈ s → e.1 ∈ s) := by
  induction es generalizing s with
  | nil => intro e he; cases he
  | cons e es ih =>
    have hfix' : stepR es (stepE s e) = s := hfix
    obtain ⟨t1, h1⟩ := stepE_append s e
    obtain ⟨t2, h2⟩ := stepR_append es (stepE s e)
    have hchain : s = s ++ t1 ++ t2 := by
      conv_lhs => rw [← hfix', h2, h1]
    have hlen := congrArg List.length hchain
    simp only [List.length_append] at hlen
    have ht1 : t1 = [] := List.eq_nil_of_length_eq_zero (by omega)
    have hE : stepE s e = s := by rw [h1, ht1, List.append_nil]
    intro e' he'
    rcases List.mem_cons.mp he' with rfl | he'
    · exact stepE_fix hE
    · exact ih (by rw [hE] at hfix'; exact hfix') e' he'

/-- All elements the saturation can ever produce. -/
def endpoints (es : List (String × String)) (u : String) : List String :=
  u :: es.flatMap (fun e => [e.1, e.2])

theorem endpoints_length {es : List (String × String)} {u : String} :
    (endpoints es u).length = 2 * es.length + 1 := by
  suffices h : (es.flatMap (fun e : String × String => [e.1, e.2])).length
      = 2 * es.length by
    simp [endpoints, h]
  induction es with
  | nil => rfl
  | cons e es ih =>
    simp only [List.flatMap_cons, List.length_append, List.length_cons, ih,
      List.length_nil, List.length_cons]
    omega

/-- The connected component of `u`: iterate `stepR` to the fixpoint. -/
def reach (es : List (String × String)) (u : String) : List String :=
  (stepR es)^[2 * es.length + 1] [u]

theorem reach_mem_endpoints {es : List (String × String)} {u : String} :
    ∀ k, ∀ x ∈ (stepR es)^[k] [u], x ∈ endpoints es u := by
  intro k
  induction k with
  | zero =>
    intro x hx
    rw [List.mem_singleton.mp hx]
    exact List.mem_cons_self u _
  | succ k ih =>
    intro x hx
    rw [Function.iterate_succ_apply'] at hx
    rcases stepR_mem_src hx with h | ⟨e, he, hx⟩
    · exact ih x h
    · apply List.mem_cons_of_mem
      rw [List.mem_flatMap]
      exact ⟨e, he, by rcases hx with rfl | rfl <;> simp⟩

theorem reach_iter_nodup {es : List (String × String)} {u : String} :
    ∀ k, ((stepR es)^[k] [u]).Nodup := by
  intro k
  induction k with
  | zero => exact List.nodup_singleton u
  | succ k ih =>
    rw [Function.iterate_succ_apply']
    exact stepR_nodup ih

theorem reach_len_le {es : List (String × String)} {u : String} (k : ℕ) :
    ((stepR es)^[k] [u]).length ≤ 2 * es.length + 1 := by
  have hnd := @reach_iter_nodup es u k
  have hsub : ((stepR es)^[k] [u]).toFinset ⊆ (endpoints es u).toFinset := by
    intro x hx
    rw [List.mem_toFinset] at *
    exact reach_mem_endpoints k x hx
  calc ((stepR es)^[k] [u]).length
      = ((stepR es)^[k] [u]).toFinset.card := (List.toFinset_card_of_nodup hnd).symm
    _ ≤ (endpoints es u).toFinset.card := Finset.card_le_card hsub
    _ ≤ (endpoints es u).length := List.toFinset_card_le (endpoints es u)
    _ = 2 * es.length + 1 := endpoints_length

theorem reach_is_fix {es : List (String × String)} {u : String} :
    stepR es (reach es u) = reach es u := by
  have growth : ∀ k, (∀ j < k, (stepR es)^[j + 1] [u] ≠ (stepR es)^[j] [u]) →
      k + 1 ≤ ((stepR es)^[k] [u]).length := by
    intro k
    induction k with
    | zero => intro _; simp
    | succ k ih =>
      intro h
      have hk := ih (fun j hj => h j (Nat.lt_succ_of_lt hj))
      have hne := h k (Nat.lt_succ_self k)
      rw [Function.iterate_succ_apply'] at hne ⊢
      obtain ⟨t, ht⟩ := stepR_append es ((stepR es)^[k] [u])
      have htne : t ≠ [] := by
        intro h0
        rw [h0, List.append_nil] at ht
        exact hne ht
      have ht1 : 1 ≤ t.length := by
        cases t with
        | nil => exact absurd rfl htne
        | cons a t => simp
      rw [ht, List.length_append]
      omega
  have hex : ∃ j, j < 2 * es.length + 1 ∧
      (stepR es)^[j + 1] [u] = (stepR es)^[j] [u] := by
    by_contra hno
    push_neg at hno
    have h1 := growth (2 * es.length + 1) (fun j hj => hno j hj)
    have h2 := @reach_len_le es u (2 * es.length + 1)
    omega
  obtain ⟨j, hj, hfix⟩ := hex
  have hstable : ∀ m, (stepR es)^[j + m] [u] = (stepR es)^[j] [u] := by
    intro m
    induction m with
    | zero => rfl
    | succ m ih =>
      rw [show j + (m + 1) = (j + m) + 1 by omega, Function.iterate_succ_apply', ih]
      have hs := Function.iterate_succ_apply' (stepR es) j [u]
      rw [← hs, hfix]
  have hreach : reach es u = (stepR es)^[j] [u] := by
    show (stepR es)^[2 * es.length + 1] [u] = _
    rw [show 2 * es.length + 1 = j + (2 * es.length + 1 - j) by omega]
    exact hstable (2 * es.length + 1 - j)
  rw [hreach]
  have hs := Function.iterate_succ_apply' (stepR es) j [u]
  rw [← hs, hfix]

theorem mem_reach_self {es : List (String × String)} {u : String} : u ∈ reach es u := by
  show u ∈ (stepR es)^[2 * es.length + 1] [u]
  generalize 2 * es.length + 1 = k
  induction k with
  | zero => exact List.mem_singleton_self u
  | succ k ih =>
    rw [Function.iterate_succ_apply']
    exact stepR_subset ih

theorem reach_sound {es : List (String × String)} {u v : String}
    (h : v ∈ reach es u) : Conn es u v := by
  revert h
  show v ∈ (stepR es)^[2 * es.length + 1] [u] → Conn es u v
  generalize 2 * es.length + 1 = k
  induction k generalizing v with
  | zero =>
    intro h
    rw [List.mem_singleton.mp h]
    exact Conn.refl
  | succ k ih =>
    intro h
    rw [Function.iterate_succ_apply'] at h
    exact stepR_sound (fun e he => he) (fun y hy => ih hy) v h

theorem reach_complete {es : List (String × String)} {u v : String}
    (h : Conn es u v) : v ∈ reach es u := by
  induction h with
  | refl => exact mem_reach_self
  | tail _ hstep ih =>
    have hcl := stepR_fix_closed (@reach_is_fix es u)
    rcases hstep with hmem | hmem
    · exact (hcl _ hmem).1 ih
    · exact (hcl _ hmem).2 ih

theorem mem_reach_iff_conn {es : List (String × String)} {u v : String} :
    v ∈ reach es u ↔ Conn es u v :=
  ⟨reach_sound, reach_complete⟩


/-! ### `cluster_graph`: connected components to a cluster table -/

/-- First node of `G` (in insertion order) connected to `v`: the canonical
representative of `v`'s component. -/
def repOf (G : Graph) (v : String) : Option String :=
  G.nodes.find? (fun u => decide (v ∈ reach G.edges u))

def rep (G : Graph) (v : String) : String := (repOf G v).getD v

/-- The component representatives in discovery order. -/
def reps (G : Graph) : List String := uniqueF (G.nodes.map (rep G))

/-- The connected components of `G`, in discovery order, members in node
insertion order. -/
def componentsOf (G : Graph) : List (List String) :=
  (reps G).map (fun r => G.nodes.filter (fun v => decide (rep G v = r)))

/-- The labelling loop of `cluster_graph`: `cluster = 0`, then for each
component append one `(cluster, genome)` row per member and increment. -/
def labelAux : Nat → List (List String) → List (Nat × String)
  | _, [] => []
  | c, comp :: rest => comp.map (fun g => (c, g)) ++ labelAux (c + 1) rest

/-- `cluster_graph(G)`: decompose into connected components and emit the
`(cluster, genome)` table, cluster ids dense from 0 in discovery order. -/
def cluster_graph (G : Graph) : List (Nat × String) :=
  labelAux 0 (componentsOf G)

theorem find?_congr {α : Type} {p q : α → Bool} (h : ∀ x, p x = q x) :
    ∀ l : List α, l.find? p = l.find? q := by
  intro l
  induction l with
  | nil => rfl
  | cons a l ih =>
    rw [List.find?_cons, List.find?_cons, h a, ih]

theorem repOf_eq_of_conn {G : Graph} {v w : String} (h : Conn G.edges v w) :
    repOf G v = repOf G w := by
  apply find?_congr
  intro u
  rw [decide_eq_decide, mem_reach_iff_conn, mem_reach_iff_conn]
  exact ⟨fun hc => hc.trans h, fun hc => hc.trans h.symm⟩

theorem repOf_isSome {G : Graph} {v : String} (hv : v ∈ G.nodes) :
    ∃ r, repOf G v = some r := by
  have : (G.nodes.find? (fun u => decide (v ∈ reach G.edges u))).isSome := by
    rw [List.find?_isSome]
    exact ⟨v, hv, by rw [decide_eq_true_eq]; exact mem_reach_self⟩
  exact Option.isSome_iff_exists.mp this

theorem rep_eq_of_conn {G : Graph} {v w : String} (h : Conn G.edges v w) (hv : v ∈ G.nodes) :
    rep G v = rep G w := by
  obtain ⟨r, hr⟩ := repOf_isSome hv
  have hw : repOf G w = some r := (repOf_eq_of_conn h).symm.trans hr
  rw [rep, rep, hr, hw]
  rfl

theorem rep_spec {G : Graph} {v : String} (hv : v ∈ G.nodes) :
    rep G v ∈ G.nodes ∧ Conn G.edges (rep G v) v := by
  obtain ⟨r, hr⟩ := repOf_isSome hv
  have hrv : rep G v = r := by rw [rep, hr]; rfl
  have hmem := List.mem_of_find?_eq_some hr
  have hp := List.find?_some hr
  rw [decide_eq_true_eq, mem_reach_iff_conn] at hp
  rw [hrv]
  exact ⟨hmem, hp⟩

theorem conn_of_rep_eq {G : Graph} {v w : String} (hv : v ∈ G.nodes) (hw : w ∈ G.nodes)
    (h : rep G v = rep G w) : Conn G.edges v w :=
  ((rep_spec hv).2.symm.trans (h ▸ (rep_spec hw).2))

theorem rep_rep {G : Graph} {v : String} (hv : v ∈ G.nodes) :
    rep G (rep G v) = rep G v :=
  (rep_eq_of_conn (rep_spec hv).2 (rep_spec hv).1)

/-- `getD` through `map` below the length. -/
theorem getD_map {α β : Type} (f : α → β) (l : List α) (i : Nat) (d : α) (d' : β)
    (hi : i < l.length) : (l.map f).getD i d' = f (l.getD i d) := by
  induction l generalizing i with
  | nil => simp at hi
  | cons a l ih =>
    cases i with
    | zero => rfl
    | succ i =>
      simp only [List.map_cons, List.getD_cons_succ]
      exact ih i (by simpa using hi)

theorem getD_mem {α : Type} {l : List α} {i : Nat} {d : α} (hi : i < l.length) :
    l.getD i d ∈ l := by
  induction l generalizing i with
  | nil => simp at hi
  | cons a l ih =>
    cases i with
    | zero => exact List.mem_cons_self a l
    | succ i =>
      exact List.mem_cons_of_mem a (ih (by simpa using hi))

theorem mem_getD_of_mem {α : Type} [DecidableEq α] {l : List α} {x : α} (hx : x ∈ l) (d : α) :
    ∃ i, i < l.length ∧ l.getD i d = x := by
  induction l with
  | nil => cases hx
  | cons a l ih =>
    rcases List.mem_cons.mp hx with rfl | hx
    · exact ⟨0, by simp, rfl⟩
    · obtain ⟨i, hi, he⟩ := ih hx
      exact ⟨i + 1, by simpa using hi, he⟩

theorem mem_labelAux {comps : List (List String)} {k c : Nat} {g : String} :
    (c, g) ∈ labelAux k comps
      ↔ ∃ i, i < comps.length ∧ c = k + i ∧ g ∈ comps.getD i [] := by
  induction comps generalizing k with
  | nil => simp [labelAux]
  | cons comp rest ih =>
    simp only [labelAux, List.mem_append, List.mem_map, ih]
    constructor
    · rintro (⟨g', hg', he⟩ | ⟨i, hi, rfl, hg⟩)
      · obtain ⟨h1, h2⟩ := Prod.mk.injEq .. ▸ he
        refine ⟨0, by simp, by omega, ?_⟩
        rw [List.getD_cons_zero]
        exact h2 ▸ hg'
      · exact ⟨i + 1, by simpa using hi, by omega, by rwa [List.getD_cons_succ]⟩
    · rintro ⟨i, hi, rfl, hg⟩
      cases i with
      | zero =>
        rw [List.getD_cons_zero] at hg
        exact Or.inl ⟨g, hg, by rw [Nat.add_zero]⟩
      | succ i =>
        rw [List.getD_cons_succ] at hg
        exact Or.inr ⟨i, by simpa using hi, by omega, hg⟩

theorem labelAux_map_snd (comps : List (List String)) :
    ∀ k, (labelAux k comps).map Prod.snd = comps.flatten := by
  induction comps with
  | nil => intro k; rfl
  | cons comp rest ih =>
    intro k
    simp only [labelAux, List.map_append, List.map_map, List.flatten_cons, ih]
    congr 1
    simp

/-- Regrouping a list by distinct key values permutes it. -/
theorem regroup_perm {α β : Type} [DecidableEq β] (key : α → β) :
    ∀ (cs : List β) (xs : List α), cs.Nodup → (∀ x ∈ xs, key x ∈ cs) →
      (cs.flatMap (fun c => xs.filter (fun x => decide (key x = c)))).Perm xs := by
  intro cs
  induction cs with
  | nil =>
    intro xs _ hcov
    have hnil : xs = [] := by
      cases xs with
      | nil => rfl
      | cons x xs => exact absurd (hcov x (List.mem_cons_self x xs)) (by simp)
    rw [hnil]; rfl
  | cons c cs ih =>
    intro xs hnd hcov
    rw [List.flatMap_cons]
    have htail : cs.flatMap (fun c' => xs.filter (fun x => decide (key x = c')))
        = cs.flatMap (fun c' =>
            (xs.filter (fun x => !decide (key x = c))).filter
              (fun x => decide (key x = c'))) := by
      unfold List.flatMap
      congr 1
      apply List.map_congr_left
      intro c' hc'
      have hne : c' ≠ c := fun he => (List.nodup_cons.mp hnd).1 (he ▸ hc')
      rw [List.filter_filter]
      apply List.filter_congr
      intro x _
      by_cases hk : key x = c'
      · have hkc : decide (key x = c) = false :=
          decide_eq_false (fun he => hne (hk.symm.trans he))
        rw [hkc]
        simp [hk]
      · simp [hk]
    rw [htail]
    have hcov' : ∀ x ∈ xs.filter (fun x => !decide (key x = c)), key x ∈ cs := by
      intro x hx
      obtain ⟨hxs, hxc⟩ := List.mem_filter.mp hx
      rcases List.mem_cons.mp (hcov x hxs) with he | h
      · exfalso; simp [he] at hxc
      · exact h
    have hperm := ih (xs.filter (fun x => !decide (key x = c)))
      (List.nodup_cons.mp hnd).2 hcov'
    exact (List.Perm.append_left _ hperm).trans (List.filter_append_perm _ xs)

/-- The genome column of `cluster_graph G` is a permutation of the nodes. -/
theorem cluster_graph_snd_perm (G : Graph) :
    ((cluster_graph G).map Prod.snd).Perm G.nodes := by
  rw [cluster_graph, labelAux_map_snd]
  show ((reps G).map _).flatten.Perm G.nodes
  have : ((reps G).map (fun r => G.nodes.filter (fun v => decide (rep G v = r)))).flatten
      = (reps G).flatMap (fun r => G.nodes.filter (fun v => decide (rep G v = r))) := rfl
  rw [this]
  apply regroup_perm (rep G) (reps G) G.nodes nodup_uniqueF
  intro v hv
  rw [reps, mem_uniqueF]
  exact List.mem_map_of_mem (rep G) hv

theorem count_cluster_graph {G : Graph} (hnd : G.nodes.Nodup) (g : String) :
    ((cluster_graph G).map Prod.snd).count g = if g ∈ G.nodes then 1 else 0 := by
  rw [(cluster_graph_snd_perm G).count_eq]
  by_cases h : g ∈ G.nodes
  · rw [if_pos h]
    exact List.count_eq_one_of_mem hnd h
  · rw [if_neg h]
    exact List.count_eq_zero_of_not_mem h

/-- Membership in the cluster table, characterised by representatives. -/
theorem mem_cluster_graph {G : Graph} {c : Nat} {g : String} :
    (c, g) ∈ cluster_graph G
      ↔ c < (reps G).length ∧ (reps G).getD c "" = rep G g ∧ g ∈ G.nodes := by
  rw [cluster_graph, mem_labelAux]
  constructor
  · rintro ⟨i, hi, rfl, hg⟩
    rw [Nat.zero_add]
    rw [componentsOf, List.length_map] at hi
    rw [componentsOf, getD_map _ _ _ "" [] hi] at hg
    obtain ⟨hgn, hrep⟩ := List.mem_filter.mp hg
    rw [decide_eq_true_eq] at hrep
    exact ⟨hi, hrep.symm, hgn⟩
  · rintro ⟨hc, hrep, hgn⟩
    refine ⟨c, ?_, by omega, ?_⟩
    · rw [componentsOf, List.length_map]; exact hc
    · rw [componentsOf, getD_map _ _ _ "" [] hc]
      rw [List.mem_filter, decide_eq_true_eq]
      exact ⟨hgn, hrep.symm⟩

/-- Two genomes share a cluster id in an output table. -/
def sameCluster (out : List (Nat × String)) (g h : String) : Prop :=
  ∃ c, (c, g) ∈ out ∧ (c, h) ∈ out

/-- The semantics of `cluster_graph`: sharing a cluster is exactly graph
connectivity between two nodes. -/
theorem sameCluster_iff_conn {G : Graph} {g h : String} :
    sameCluster (cluster_graph G) g h
      ↔ g ∈ G.nodes ∧ h ∈ G.nodes ∧ Conn G.edges g h := by
  constructor
  · rintro ⟨c, hg, hh⟩
    obtain ⟨hc, hrg, hgn⟩ := mem_cluster_graph.mp hg
    obtain ⟨_, hrh, hhn⟩ := mem_cluster_graph.mp hh
    exact ⟨hgn, hhn, conn_of_rep_eq hgn hhn (hrg.symm.trans hrh)⟩
  · rintro ⟨hgn, hhn, hconn⟩
    have hrg : rep G g ∈ reps G := by
      rw [reps, mem_uniqueF]
      exact List.mem_map_of_mem (rep G) hgn
    obtain ⟨c, hc, hgd⟩ := mem_getD_of_mem hrg ""
    refine ⟨c, mem_cluster_graph.mpr ⟨hc, hgd, hgn⟩, mem_cluster_graph.mpr ⟨hc, ?_, hhn⟩⟩
    rw [hgd]
    exact rep_eq_of_conn hconn hgn

/-- A genome appears in the cluster table iff it is a node. -/
theorem mem_snd_cluster_graph {G : Graph} {g : String} :
    (∃ c, (c, g) ∈ cluster_graph G) ↔ g ∈ G.nodes := by
  constructor
  · rintro ⟨c, hc⟩
    exact (mem_cluster_graph.mp hc).2.2
  · intro hg
    obtain ⟨c, hc, _⟩ := sameCluster_iff_conn.mpr ⟨hg, hg, Conn.refl⟩
    exact ⟨c, hc⟩

/-- The number of distinct cluster ids in an output table. -/
def numClusters (out : List (Nat × String)) : Nat :=
  (out.map Prod.fst).toFinset.card

theorem fst_cluster_graph_mem {G : Graph} {c : Nat} :
    (∃ g, (c, g) ∈ cluster_graph G) ↔ c < (reps G).length := by
  constructor
  · rintro ⟨g, hg⟩
    exact (mem_cluster_graph.mp hg).1
  · intro hc
    have hmem : (reps G).getD c "" ∈ reps G := getD_mem hc
    rw [reps, mem_uniqueF] at hmem
    obtain ⟨v, hv, hrv⟩ := List.mem_map.mp hmem
    exact ⟨v, mem_cluster_graph.mpr ⟨hc, hrv.symm, hv⟩⟩

theorem numClusters_cluster_graph (G : Graph) :
    numClusters (cluster_graph G) = (G.nodes.map (rep G)).toFinset.card := by
  have h1 : ((cluster_graph G).map Prod.fst).toFinset = Finset.range (reps G).length := by
    ext c
    rw [List.mem_toFinset, Finset.mem_range, ← fst_cluster_graph_mem]
    constructor
    · intro hc
      obtain ⟨p, hp, he⟩ := List.mem_map.mp hc
      exact ⟨p.2, by rwa [show (c, p.2) = p from by rw [← he]]⟩
    · rintro ⟨g, hg⟩
      exact List.mem_map.mpr ⟨(c, g), hg, rfl⟩
  have h2 : (reps G).length = (G.nodes.map (rep G)).toFinset.card := by
    have hset : (reps G).toFinset = (G.nodes.map (rep G)).toFinset := by
      ext x
      rw [List.mem_toFinset, List.mem_toFinset, reps, mem_uniqueF]
    calc (reps G).length = (reps G).toFinset.card :=
          (List.toFinset_card_of_nodup nodup_uniqueF).symm
      _ = (G.nodes.map (rep G)).toFinset.card := by rw [hset]
  rw [numClusters, h1, Finset.card_range, h2]

/-! ### `parse_delta` and `process_deltadir`: the alignment output parser -/

/-- Whitespace splitter over the character list (runs of whitespace
separate tokens, empties dropped). -/
def tokensAux : List Char → List Char → List String
  | [], cur => if cur = [] then [] else [String.mk cur.reverse]
  | c :: cs, cur =>
    if c.isWhitespace then
      if cur = [] then tokensAux cs []
      else String.mk cur.reverse :: tokensAux cs []
    else tokensAux cs (c :: cur)

/-- `line.strip().split()`: whitespace tokenisation of one line. -/
def tokens (l : String) : List String := tokensAux l.data []

/-- `s.startswith(c)` for a single-character prefix. -/
def startsWith1 (s : String) (c : Char) : Bool :=
  match s.data with
  | [] => false
  | d :: _ => d = c

/-- Decimal digits to a number, `none` on the first non-digit. -/
def digitsToNat : List Char → Nat → Option Nat
  | [], acc => some acc
  | c :: cs, acc =>
    if c.isDigit then digitsToNat cs (acc * 10 + (c.toNat - 48)) else none

/-- Python `int(...)` on a plain decimal numeral with an optional sign. -/
def pyInt (s : String) : Option Int :=
  match s.data with
  | [] => none
  | '-' :: cs => if cs = [] then none else (digitsToNat cs 0).map (fun n => -(n : Int))
  | '+' :: cs => if cs = [] then none else (digitsToNat cs 0).map (fun n => (n : Int))
  | cs => (digitsToNat cs 0).map (fun n => (n : Int))

/-- Python `int(...)`: `ValueError` on a non-numeric string. -/
def toIntE (s : String) : Except PyErr Int :=
  match pyInt s with
  | some n => Except.ok n
  | none => Except.error PyErr.valueError

/-- The `len(line) == 7` test of `parse_delta`: the fields `line[0]`,
`line[1]`, `line[4]` of a seven-field record, `none` otherwise. -/
def recordFields : List String → Option (String × String × String)
  | [s0, s1, _, _, s4, _, _] => some (s0, s1, s4)
  | _ => none

theorem recordFields_eq_none {toks : List String} (h : toks.length ≠ 7) :
    recordFields toks = none := by
  rcases toks with _ | ⟨a, _ | ⟨b, _ | ⟨c, _ | ⟨d, _ | ⟨e, _ | ⟨f, _ | ⟨g, _ | ⟨x, t⟩⟩⟩⟩⟩⟩⟩⟩
  · rfl
  · rfl
  · rfl
  · rfl
  · rfl
  · rfl
  · rfl
  · exact absurd rfl h
  · rfl

/-- The line loop of `parse_delta`, accumulating `(aln_length, sim_errors)`.
`line[0]` on an empty token list raises `IndexError`; `NUCMER` lines and
`>`-header lines are skipped, as is every line without exactly seven
fields; a seven-field record contributes `abs(int(line[1]) - int(line[0]))`
to the length and `int(line[4])` to the error count. -/
def parse_delta_aux : List String → Int → Int → Except PyErr (Int × Int)
  | [], aln, sim => Except.ok (aln, sim)
  | l :: ls, aln, sim =>
    match tokens l with
    | [] => Except.error PyErr.indexError
    | t0 :: rest =>
      if t0 = "NUCMER" ∨ startsWith1 t0 '>' then parse_delta_aux ls aln sim
      else
        match recordFields (t0 :: rest) with
        | some (s0, s1, s4) =>
          (toIntE s1).bind (fun v1 =>
            (toIntE s0).bind (fun v0 =>
              (toIntE s4).bind (fun v4 =>
                parse_delta_aux ls (aln + |v1 - v0|) (sim + v4))))
        | none => parse_delta_aux ls aln sim

/-- `parse_delta(filename)` over the file's lines. -/
def parse_delta (lines : List String) : Except PyErr (Int × Int) :=
  parse_delta_aux lines 0 0

/-- One `.delta` file of a result directory: the `qname`/`sname` derived
from the `<query>_vs_<reference>.delta` file name, plus the file's lines. -/
structure DeltaFile where
  qname : String
  sname : String
  lines : List String
  deriving Repr, DecidableEq

/-- `org_lengths[name]`: `KeyError` when the key is absent. -/
def dictGet (d : List (String × Nat)) (k : String) : Except PyErr Nat :=
  match d.lookup k with
  | some v => Except.ok v
  | none => Except.error (PyErr.keyError k)

/-- The file loop of `process_deltadir`, kept together with the local
`zero_error` flag so that the flag's fate is visible: the pair
`(table rows, zero_error)` is the state at the end of the loop.  Python
evaluation order is preserved: `parse_delta`, then the `query_cover`
division (`KeyError` on a missing `qname`, `ZeroDivisionError` on a zero
recorded length), then the `sbjct_cover` division, and only then the
guarded identity division, whose `ZeroDivisionError` is caught and turned
into the `perc_id = 0` sentinel with `zero_error = True`. -/
def process_deltadir_core (files : List DeltaFile) (org_lengths : List (String × Nat)) :
    Except PyErr (List NRow × Bool) :=
  match files with
  | [] => Except.ok ([], false)
  | f :: fs =>
    (parse_delta f.lines).bind (fun p =>
      (dictGet org_lengths f.qname).bind (fun qlen =>
        if qlen = 0 then Except.error PyErr.zeroDivisionError
        else
          (dictGet org_lengths f.sname).bind (fun slen =>
            if slen = 0 then Except.error PyErr.zeroDivisionError
            else
              let query_cover : Rat := (p.1 : Rat) / (qlen : Rat)
              let sbjct_cover : Rat := (p.1 : Rat) / (slen : Rat)
              let pz : Rat × Bool :=
                if p.1 = 0 then (0, true) else (1 - (p.2 : Rat) / (p.1 : Rat), false)
              (process_deltadir_core fs org_lengths).bind (fun rest =>
                Except.ok
                  (⟨f.qname, f.sname, p.1, p.2, sbjct_cover, query_cover, pz.1⟩ :: rest.1,
                    pz.2 || rest.2)))))

/-- `process_deltadir(delta_dir, org_lengths)`: the function body computes
the table and the `zero_error` flag, but `return df` hands back the table
alone — the flag is a discarded local. -/
def process_deltadir (files : List DeltaFile) (org_lengths : List (String × Nat)) :
    Except PyErr (List NRow) :=
  (process_deltadir_core files org_lengths).map Prod.fst

/-! ### The two-tier pipeline -/

/-- A row of `Bdb`: genome name and fasta location. -/
structure BRow where
  genome : String
  location : String
  deriving Repr, DecidableEq

/-- A row of the final merged table: genome, composite ANIn label, coarse
mash cluster. -/
structure FRow where
  genome : String
  ANIn_cluster : String
  MASH_cluster : Nat
  deriving Repr, DecidableEq

/-- `cluster_database(db, threshold)`: graph then components (the rename of
the `cluster` column to `MASH_cluster` is implicit in the row type). -/
def cluster_database (db : List MRow) (threshold : Rat) : List (Nat × String) :=
  cluster_graph (make_graph db threshold)

/-- `pd.merge(Bdb, Cdb)` on the shared `genome` column (inner join). -/
def mergeBC (Bdb : List BRow) (Cdb : List (Nat × String)) : List (BRow × Nat) :=
  Bdb.flatMap (fun b =>
    (Cdb.filter (fun c => decide (c.2 = b.genome))).map (fun c => (b, c.1)))

/-- The per-cluster parse loop of `run_anin_on_clusters` (step 3): for each
coarse cluster, parse that cluster's delta directory and tag the rows with
the cluster id, concatenating into `Ndb`. -/
def collectNdb (deltas : Nat → List DeltaFile) (orgL : List (String × Nat)) :
    List Nat → Except PyErr (List (NRow × Nat))
  | [] => Except.ok []
  | c :: cs =>
    (process_deltadir (deltas c) orgL).bind (fun data =>
      (collectNdb deltas orgL cs).bind (fun rest =>
        Except.ok (data.map (fun r => (r, c)) ++ rest)))

/-- `run_anin_on_clusters(Bdb, Cdb, data_folder)`: merge `Bdb` with `Cdb`,
build `org_lengths` from `fasta_length` of each location, then parse each
cluster's delta directory.  The nucmer command generation and execution
only populate the directories, which are modelled by the `deltas` input. -/
def run_anin_on_clusters (Bdb : List BRow) (Cdb : List (Nat × String))
    (deltas : Nat → List DeltaFile) (fasta_length : String → Nat) :
    Except PyErr (List (NRow × Nat)) :=
  let Bm := mergeBC Bdb Cdb
  let org_lengths := Bm.map (fun r => (r.1.genome, fasta_length r.1.location))
  collectNdb deltas org_lengths (uniqueF (Bm.map (fun r => r.2)))

/-- `Cdb['genome'][Cdb['MASH_cluster'] == cluster].tolist()`. -/
def membersOf (Cdb : List (Nat × String)) (cluster : Nat) : List String :=
  (Cdb.filter (fun r => decide (r.1 = cluster))).map Prod.snd

/-- `pd.merge(Gdb, Cdb)` on `genome` (inner join). -/
def mergeGC (Gdb : List (String × String)) (Cdb : List (Nat × String)) : List FRow :=
  Gdb.flatMap (fun g =>
    (Cdb.filter (fun c => decide (c.2 = g.1))).map (fun c => ⟨g.1, g.2, c.1⟩))

/-- The fine table for one coarse cluster:
`Ndb[Ndb['reference'].isin(members)]` (the tag column is dropped when
handing the frame to `make_graph_anin`, which reads none of it). -/
def fineTable (Cdb : List (Nat × String)) (Ndb : List (NRow × Nat)) (cluster : Nat) :
    List NRow :=
  (Ndb.filter (fun r => decide (r.1.reference ∈ membersOf Cdb cluster))).map Prod.fst

/-- The inner loop body of `cluster_anin_database` for one coarse cluster:
cluster the fine graph and emit one `(genome, "{cluster}_{clust}")` row
per genome, grouped by fine cluster id. -/
def aninBlock (Cdb : List (Nat × String)) (Ndb : List (NRow × Nat))
    (ANIn : Rat) (cov_thresh : Rat) (cluster : Nat) : List (String × String) :=
  (uniqueF ((cluster_graph (make_graph_anin (fineTable Cdb Ndb cluster)
      cov_thresh ANIn)).map Prod.fst)).flatMap (fun clust =>
    (((cluster_graph (make_graph_anin (fineTable Cdb Ndb cluster)
        cov_thresh ANIn)).filter (fun r => decide (r.1 = clust))).map Prod.snd).map
      (fun genome => (genome, toString cluster ++ "_" ++ toString clust)))

/-- The `Table` accumulated by the double loop of `cluster_anin_database`:
the per-cluster blocks in coarse-cluster order. -/
def aninGdb (Cdb : List (Nat × String)) (Ndb : List (NRow × Nat))
    (ANIn : Rat) (cov_thresh : Rat) : List (String × String) :=
  (uniqueF (Cdb.map Prod.fst)).flatMap (aninBlock Cdb Ndb ANIn cov_thresh)

/-- `cluster_anin_database(Cdb, Ndb, ANIn, cov_thresh)`: the double loop
above followed by `pd.merge(Gdb, Cdb)`. -/
def cluster_anin_database (Cdb : List (Nat × String)) (Ndb : List (NRow × Nat))
    (ANIn : Rat) (cov_thresh : Rat) : List FRow :=
  mergeGC (aninGdb Cdb Ndb ANIn cov_thresh) Cdb

/-- `cluster_genomes(Bdb, data_folder, MASH_ANI, ANIn, dry, skipMash,
skipANIn)`.  The mash stage's observable output is the `Mdb` input; the
nucmer stage's observable outputs are the `deltas` directories.  The
`skipMash` branch calls `gen_nomash_cdb`, a name not defined anywhere in
the module, so it raises `NameError`; the `skipANIn` branch leaves the
local `Ndb` unassigned, so the final `return Cdb,Mdb,Ndb` raises
`UnboundLocalError`.  The ANIn stage is invoked with the literal
thresholds `ANIn=.99, cov_thresh=0.5`, not with the `ANIn` argument. -/
def cluster_genomes (Bdb : List BRow) (Mdb : List MRow) (deltas : Nat → List DeltaFile)
    (fasta_length : String → Nat) (MASH_ANI : Rat) (ANIn : Rat)
    (skipMash : Bool) (skipANIn : Bool) :
    Except PyErr (List FRow × List MRow × List (NRow × Nat)) :=
  if skipMash then Except.error (PyErr.nameError "gen_nomash_cdb")
  else
    let Cdb := cluster_database Mdb MASH_ANI
    if skipANIn then Except.error (PyErr.unboundLocal "Ndb")
    else
      (run_anin_on_clusters Bdb Cdb deltas fasta_length).bind (fun Ndb =>
        Except.ok (cluster_anin_database Cdb Ndb ((99 : Rat) / 100) ((1 : Rat) / 2),
          Mdb, Ndb))

/-! ### Characterisations of the two graph builders -/

theorem mem_mashPairs {df : List MRow} {t : Rat} {p : String × String} :
    p ∈ mashPairs df t
      ↔ ∃ r ∈ df, r.similarity > t ∧ p = (r.genome1, r.genome2) := by
  simp only [mashPairs, List.mem_map, List.mem_filter, decide_eq_true_eq]
  constructor
  · rintro ⟨r, ⟨hr, hs⟩, he⟩
    exact ⟨r, hr, hs, he.symm⟩
  · rintro ⟨r, hr, hs, he⟩
    exact ⟨r, ⟨hr, hs⟩, he.symm⟩

theorem mem_aninPairs {df : List NRow} {c a : Rat} {p : String × String} :
    p ∈ aninPairs df c a
      ↔ ∃ r ∈ df, (r.ref_coverage > c ∧ r.ani > a) ∧ p = (r.reference, r.querry) := by
  simp only [aninPairs, List.mem_map, List.mem_filter, decide_eq_true_eq]
  constructor
  · rintro ⟨r, ⟨hr, hs⟩, he⟩
    exact ⟨r, hr, hs, he.symm⟩
  · rintro ⟨r, hr, hs, he⟩
    exact ⟨r, ⟨hr, hs⟩, he.symm⟩

theorem make_graph_edges (df : List MRow) (t : Rat) :
    (make_graph df t).edges = mashPairs df t := by
  rw [make_graph_eq, buildGraph_edges]
  rfl

theorem make_graph_anin_edges (df : List NRow) (c a : Rat) :
    (make_graph_anin df c a).edges = aninPairs df c a := by
  rw [make_graph_anin_eq, buildGraph_edges]
  rfl

theorem mem_make_graph_nodes {df : List MRow} {t : Rat} {x : String} :
    x ∈ (make_graph df t).nodes
      ↔ x ∈ df.map MRow.genome1
        ∨ ∃ r ∈ df, r.similarity > t ∧ (x = r.genome1 ∨ x = r.genome2) := by
  rw [make_graph_eq, buildGraph_mem_nodes]
  show x ∈ uniqueF (df.map MRow.genome1) ∨ _ ↔ _
  rw [mem_uniqueF]
  constructor
  · rintro (h | ⟨p, hp, hx⟩)
    · exact Or.inl h
    · obtain ⟨r, hr, hs, rfl⟩ := mem_mashPairs.mp hp
      exact Or.inr ⟨r, hr, hs, hx⟩
  · rintro (h | ⟨r, hr, hs, hx⟩)
    · exact Or.inl h
    · exact Or.inr ⟨(r.genome1, r.genome2), mem_mashPairs.mpr ⟨r, hr, hs, rfl⟩, hx⟩

theorem mem_make_graph_anin_nodes {df : List NRow} {c a : Rat} {x : String} :
    x ∈ (make_graph_anin df c a).nodes
      ↔ x ∈ df.map NRow.reference
        ∨ ∃ r ∈ df, (r.ref_coverage > c ∧ r.ani > a) ∧ (x = r.reference ∨ x = r.querry) := by
  rw [make_graph_anin_eq, buildGraph_mem_nodes]
  show x ∈ uniqueF (df.map NRow.reference) ∨ _ ↔ _
  rw [mem_uniqueF]
  constructor
  · rintro (h | ⟨p, hp, hx⟩)
    · exact Or.inl h
    · obtain ⟨r, hr, hs, rfl⟩ := mem_aninPairs.mp hp
      exact Or.inr ⟨r, hr, hs, hx⟩
  · rintro (h | ⟨r, hr, hs, hx⟩)
    · exact Or.inl h
    · exact Or.inr ⟨(r.reference, r.querry), mem_aninPairs.mpr ⟨r, hr, hs, rfl⟩, hx⟩

theorem make_graph_nodes_nodup (df : List MRow) (t : Rat) :
    (make_graph df t).nodes.Nodup := by
  rw [make_graph_eq]
  exact buildGraph_nodup nodup_uniqueF

theorem make_graph_anin_nodes_nodup (df : List NRow) (c a : Rat) :
    (make_graph_anin df c a).nodes.Nodup := by
  rw [make_graph_anin_eq]
  exact buildGraph_nodup nodup_uniqueF

/-! ### Supporting lemmas on `List.lookup` -/

theorem lookup_some_mem {l : List (String × Nat)} {k : String} {v : Nat}
    (h : l.lookup k = some v) : (k, v) ∈ l := by
  induction l with
  | nil => cases h
  | cons p l ih =>
    obtain ⟨a, b⟩ := p
    by_cases he : k = a
    · subst he
      simp only [List.lookup_cons, beq_self_eq_true] at h
      have hv : b = v := by injection h
      subst hv
      exact List.mem_cons_self _ _
    · rw [List.lookup_cons] at h
      rw [show (k == a) = false from beq_eq_false_iff_ne.mpr he] at h
      exact List.mem_cons_of_mem _ (ih h)

theorem lookup_some_of_mem {l : List (String × Nat)} {k : String} {v : Nat}
    (h : (k, v) ∈ l) : ∃ w, l.lookup k = some w ∧ (k, w) ∈ l := by
  induction l with
  | nil => cases h
  | cons p l ih =>
    obtain ⟨a, b⟩ := p
    by_cases he : k = a
    · subst he
      refine ⟨b, ?_, List.mem_cons_self _ _⟩
      simp only [List.lookup_cons, beq_self_eq_true]
    · rcases List.mem_cons.mp h with he' | h'
      · exact absurd (congrArg Prod.fst he') he
      · obtain ⟨w, hw, hmem⟩ := ih h'
        refine ⟨w, ?_, List.mem_cons_of_mem _ hmem⟩
        rw [List.lookup_cons]
        rw [show (k == a) = false from beq_eq_false_iff_ne.mpr he]
        exact hw

/-! ### Behaviour of `parse_delta` on non-record lines -/

theorem parse_delta_aux_skip {l : String} (h1 : tokens l ≠ [])
    (h2 : (tokens l).length ≠ 7) :
    ∀ (pre post : List String) (aln sim : Int),
      parse_delta_aux (pre ++ l :: post) aln sim = parse_delta_aux (pre ++ post) aln sim := by
  intro pre
  induction pre with
  | nil =>
    intro post aln sim
    show parse_delta_aux (l :: post) aln sim = parse_delta_aux post aln sim
    rcases htk : tokens l with _ | ⟨t0, rest⟩
    · exact absurd htk h1
    · simp only [parse_delta_aux, htk]
      by_cases hh : t0 = "NUCMER" ∨ startsWith1 t0 '>'
      · rw [if_pos hh]
      · rw [if_neg hh]
        rw [recordFields_eq_none (htk ▸ h2)]
  | cons x pre ih =>
    intro post aln sim
    show parse_delta_aux (x :: (pre ++ l :: post)) aln sim
      = parse_delta_aux (x :: (pre ++ post)) aln sim
    simp only [parse_delta_aux]
    rcases htk : tokens x with _ | ⟨t0, rest⟩
    · rfl
    · dsimp only
      by_cases hh : t0 = "NUCMER" ∨ startsWith1 t0 '>'
      · rw [if_pos hh, if_pos hh]
        exact ih post aln sim
      · rw [if_neg hh, if_neg hh]
        rcases recordFields (t0 :: rest) with _ | ⟨s0, s1, s4⟩
        · dsimp only
          exact ih post aln sim
        · dsimp only
          rcases toIntE s1 with e1 | v1
          · rfl
          · dsimp only [Except.bind]
            rcases toIntE s0 with e0 | v0
            · rfl
            · dsimp only [Except.bind]
              rcases toIntE s4 with e4 | v4
              · rfl
              · dsimp only [Except.bind]
                exact ih post _ _

/-! ### Claim theorems: skip path, parser tolerance, graph-builder policy -/

/-- C3: calling `cluster_genomes` with `skipMash=True` does not produce the
single-coarse-cluster degenerate result the claim describes; the branch
calls the undefined name `gen_nomash_cdb` and raises `NameError` (and even
past that, `Mdb` would be unbound at the `return` statement), for every
input and every setting of the remaining arguments. -/
theorem C3_skipMash_raises (Bdb : List BRow) (Mdb : List MRow)
    (deltas : Nat → List DeltaFile) (fasta_length : String → Nat)
    (MASH_ANI ANIn : Rat) (skipANIn : Bool) :
    cluster_genomes Bdb Mdb deltas fasta_length MASH_ANI ANIn true skipANIn
      = Except.error (PyErr.nameError "gen_nomash_cdb") := rfl

/-- C6 counterexample: a content line with five whitespace-separated fields
(neither a `NUCMER` line nor a `>` header) is silently ignored —
`parse_delta` returns `(0, 0)` instead of failing with any malformed-record
error. -/
theorem C6_counterexample : parse_delta ["1 2 3 4 5"] = Except.ok (0, 0) := by rfl

/-- C6 amended: `parse_delta` is tolerant, not intolerant, of malformed
record lines: any line whose token list is non-empty and does not have
exactly seven fields (headers included) is skipped without error, leaving
the parse of the remaining lines unchanged.  No `MalformedRecordError`
exists in the module; the only line-level failure is an `IndexError` on a
fully blank line. -/
theorem C6_amended (pre post : List String) (l : String) (h1 : tokens l ≠ [])
    (h2 : (tokens l).length ≠ 7) :
    parse_delta (pre ++ l :: post) = parse_delta (pre ++ post) :=
  parse_delta_aux_skip h1 h2 pre post 0 0

/-- C6 amended, witness: skipping the five-field line between a header and
a record line leaves the parse unchanged. -/
theorem C6_amended_witness :
    tokens "1 2 3 4 5" ≠ [] ∧ (tokens "1 2 3 4 5").length ≠ 7 ∧
      parse_delta (["NUCMER"] ++ "1 2 3 4 5" :: ["1 11 1 11 2 0 0"])
        = parse_delta (["NUCMER"] ++ ["1 11 1 11 2 0 0"]) :=
  ⟨by decide, by decide,
    C6_amended ["NUCMER"] ["1 11 1 11 2 0 0"] "1 2 3 4 5" (by decide) (by decide)⟩

unseal Rat.mul Rat.inv Rat.sub Rat.add in
/-- C7 counterexample: a qualifying row naming genome `B`, which is absent
from the seeded node set (the `genome1` column), does not raise any
`ReferenceError`: `make_graph` silently creates the node `B`. -/
theorem C7_counterexample :
    make_graph [⟨"A", "B", (95 : Rat) / 100⟩] ((9 : Rat) / 10)
        = ⟨["A", "B"], [("A", "B")]⟩
      ∧ "B" ∉ ([⟨"A", "B", (95 : Rat) / 100⟩] : List MRow).map MRow.genome1 := by
  constructor
  · decide
  · decide

/-- C7 amended: the graph builders take no `allNodes` argument and cannot
fail: they are total functions, the node set is exactly the seeded column
plus every genome named by a qualifying row, and a genome unknown to the
seeded column is silently added as a new node rather than rejected. -/
theorem C7_amended (df : List MRow) (dfa : List NRow) (t c a : Rat) (x : String) :
    (x ∈ (make_graph df t).nodes
      ↔ x ∈ df.map MRow.genome1
        ∨ ∃ r ∈ df, r.similarity > t ∧ (x = r.genome1 ∨ x = r.genome2))
    ∧ (x ∈ (make_graph_anin dfa c a).nodes
      ↔ x ∈ dfa.map NRow.reference
        ∨ ∃ r ∈ dfa, (r.ref_coverage > c ∧ r.ani > a) ∧ (x = r.reference ∨ x = r.querry)) :=
  ⟨mem_make_graph_nodes, mem_make_graph_anin_nodes⟩

unseal Rat.mul Rat.inv Rat.sub Rat.add in
/-- C2 counterexample: the graph has no node for a genome that appears only
in the `genome2` column with no qualifying edge: with the single row
`(A, B, 0.5)` and threshold `0.9`, `B` is not a node and is silently
dropped from the clustering instead of forming a singleton cluster. -/
theorem C2_counterexample :
    "B" ∉ (make_graph [⟨"A", "B", (1 : Rat) / 2⟩] ((9 : Rat) / 10)).nodes
      ∧ cluster_database [⟨"A", "B", (1 : Rat) / 2⟩] ((9 : Rat) / 10) = [(0, "A")] := by
  constructor
  · decide
  · decide

/-- A connectivity step out of a genome that no qualifying row names is
impossible, so such a genome is connected only to itself. -/
theorem conn_isolated {df : List MRow} {t : Rat} {g h : String}
    (hiso : ∀ r ∈ df, r.similarity > t → g ≠ r.genome1 ∧ g ≠ r.genome2)
    (hc : Conn (make_graph df t).edges g h) : h = g := by
  rcases Relation.ReflTransGen.cases_head hc with rfl | ⟨mid, hstep, _⟩
  · rfl
  · exfalso
    rw [make_graph_edges] at hstep
    rcases hstep with hm | hm
    · obtain ⟨r, hr, hs, he⟩ := mem_mashPairs.mp hm
      exact (hiso r hr hs).1 (congrArg Prod.fst he)
    · obtain ⟨r, hr, hs, he⟩ := mem_mashPairs.mp hm
      exact (hiso r hr hs).2 (congrArg Prod.snd he)

/-- C2 amended: node inclusion is guaranteed only for genomes of the
`genome1` column (the seeded set), not for an externally supplied genome
set.  Such a genome with no qualifying edge does form a singleton cluster;
a genome appearing only in the `genome2` column of sub-threshold rows is
dropped (see the counterexample). -/
theorem C2_amended (df : List MRow) (t : Rat) (g : String)
    (hmem : g ∈ df.map MRow.genome1)
    (hiso : ∀ r ∈ df, r.similarity > t → g ≠ r.genome1 ∧ g ≠ r.genome2) :
    ∃ c, (c, g) ∈ cluster_database df t
      ∧ ∀ h, (c, h) ∈ cluster_database df t → h = g := by
  have hnode : g ∈ (make_graph df t).nodes := mem_make_graph_nodes.mpr (Or.inl hmem)
  obtain ⟨c, hc⟩ := mem_snd_cluster_graph.mpr hnode
  refine ⟨c, hc, fun h hh => ?_⟩
  obtain ⟨_, _, hconn⟩ := sameCluster_iff_conn.mp ⟨c, hc, hh⟩
  exact conn_isolated hiso hconn

unseal Rat.mul Rat.inv Rat.sub Rat.add in
/-- C2 amended, witness: genome `A` sits in the `genome1` column, its only
row is sub-threshold, and it receives a singleton cluster. -/
theorem C2_amended_witness :
    ("A" ∈ ([⟨"A", "B", (1 : Rat) / 2⟩] : List MRow).map MRow.genome1)
    ∧ (∀ r ∈ ([⟨"A", "B", (1 : Rat) / 2⟩] : List MRow),
        r.similarity > (9 : Rat) / 10 → "A" ≠ r.genome1 ∧ "A" ≠ r.genome2)
    ∧ ∃ c, (c, "A") ∈ cluster_database [⟨"A", "B", (1 : Rat) / 2⟩] ((9 : Rat) / 10)
        ∧ ∀ h, (c, h) ∈ cluster_database [⟨"A", "B", (1 : Rat) / 2⟩] ((9 : Rat) / 10) → h = "A" :=
  ⟨by decide, by decide,
    C2_amended [⟨"A", "B", (1 : Rat) / 2⟩] ((9 : Rat) / 10) "A" (by decide) (by decide)⟩

/-! ### Claim theorems: `process_deltadir` error and degeneracy behaviour -/

/-- Decidable equality of `Except` results, so that concrete runs can be
checked by `decide`. -/
instance instDecEqExcept {ε α : Type} [DecidableEq ε] [DecidableEq α] :
    DecidableEq (Except ε α) := fun x y => by
  cases x <;> cases y
  case error.error e f => exact decidable_of_iff (e = f) (by simp)
  case error.ok e a => exact isFalse (by simp)
  case ok.error a e => exact isFalse (by simp)
  case ok.ok a b => exact decidable_of_iff (a = b) (by simp)

theorem process_deltadir_error_iff {files : List DeltaFile} {orgL : List (String × Nat)}
    {e : PyErr} :
    process_deltadir files orgL = Except.error e
      ↔ process_deltadir_core files orgL = Except.error e := by
  rw [process_deltadir]
  rcases process_deltadir_core files orgL with e' | v
  · simp [Except.map]
  · simp [Except.map]

/-- When every file parses and every name resolves to a nonzero length, the
parse loop succeeds and produces exactly one row per file, in file order,
carrying the file's query/reference names. -/
theorem process_core_ok (files : List DeltaFile) (orgL : List (String × Nat))
    (hall : ∀ f ∈ files, ∃ p, parse_delta f.lines = Except.ok p)
    (hlen : ∀ f ∈ files, (∃ n, n ≠ 0 ∧ orgL.lookup f.qname = some n)
        ∧ (∃ n, n ≠ 0 ∧ orgL.lookup f.sname = some n)) :
    ∃ rows flag, process_deltadir_core files orgL = Except.ok (rows, flag)
      ∧ rows.map (fun r => (r.querry, r.reference))
          = files.map (fun f => (f.qname, f.sname)) := by
  induction files with
  | nil => exact ⟨[], false, rfl, rfl⟩
  | cons f fs ih =>
    obtain ⟨p, hp⟩ := hall f (List.mem_cons_self f fs)
    obtain ⟨⟨qn, hqn0, hqn⟩, ⟨sn, hsn0, hsn⟩⟩ := hlen f (List.mem_cons_self f fs)
    obtain ⟨rows, flag, hcore, hmap⟩ :=
      ih (fun g hg => hall g (List.mem_cons_of_mem f hg))
        (fun g hg => hlen g (List.mem_cons_of_mem f hg))
    refine ⟨⟨f.qname, f.sname, p.1, p.2, (p.1 : Rat) / (sn : Rat), (p.1 : Rat) / (qn : Rat),
        (if p.1 = 0 then ((0 : Rat), true) else (1 - (p.2 : Rat) / (p.1 : Rat), false)).1⟩
        :: rows,
      (if p.1 = 0 then ((0 : Rat), true) else (1 - (p.2 : Rat) / (p.1 : Rat), false)).2
        || flag, ?_, ?_⟩
    · simp only [process_deltadir_core, hp, Except.bind, dictGet, hqn, hsn,
        if_neg hqn0, if_neg hsn0, hcore]
    · simp only [List.map_cons, hmap]

unseal Rat.mul Rat.inv Rat.sub Rat.add in
/-- C5 counterexample: for the degenerate pair (`aligned length 0`), the
loop state does flag `zero_error = True` and the emitted row has the
`identity = 0` sentinel, but `process_deltadir` returns the bare table —
`return df` discards the flag, so no "had degenerate pair" boolean reaches
the caller alongside the table. -/
theorem C5_counterexample :
    process_deltadir_core [⟨"A", "B", ["NUCMER"]⟩] [("A", 10), ("B", 10)]
        = Except.ok ([⟨"A", "B", 0, 0, 0, 0, 0⟩], true)
      ∧ process_deltadir [⟨"A", "B", ["NUCMER"]⟩] [("A", 10), ("B", 10)]
        = Except.ok [⟨"A", "B", 0, 0, 0, 0, 0⟩] := by
  constructor
  · decide
  · decide

/-- C5 amended: with resolvable nonzero lengths, a file whose accumulated
aligned length is 0 does not abort the batch: the parser returns a table
containing a row for that pair with the `identity = 0` sentinel (and
aligned length 0).  The aggregated `zero_error` flag is set in the loop
state but is only a local variable: the function's return value is the
table alone, so the flag is not surfaced to the caller. -/
theorem C5_amended (files : List DeltaFile) (orgL : List (String × Nat)) (f : DeltaFile)
    (hf : f ∈ files) (hs : Int) (hdeg : parse_delta f.lines = Except.ok (0, hs))
    (hall : ∀ g ∈ files, ∃ p, parse_delta g.lines = Except.ok p)
    (hlen : ∀ g ∈ files, (∃ n, n ≠ 0 ∧ orgL.lookup g.qname = some n)
        ∧ (∃ n, n ≠ 0 ∧ orgL.lookup g.sname = some n)) :
    ∃ rows flag, process_deltadir_core files orgL = Except.ok (rows, flag)
      ∧ process_deltadir files orgL = Except.ok rows
      ∧ flag = true
      ∧ ∃ row ∈ rows, row.querry = f.qname ∧ row.reference = f.sname
          ∧ row.ani = 0 ∧ row.alignment_length = 0 := by
  induction files with
  | nil => cases hf
  | cons g fs ih =>
    obtain ⟨p, hp⟩ := hall g (List.mem_cons_self g fs)
    obtain ⟨⟨qn, hqn0, hqn⟩, ⟨sn, hsn0, hsn⟩⟩ := hlen g (List.mem_cons_self g fs)
    rcases List.mem_cons.mp hf with rfl | hf'
    · -- the degenerate file is the head
      have hp0 : p = (0, hs) := by
        have := hp.symm.trans hdeg
        injection this
      subst hp0
      obtain ⟨rows, flag, hcore, _⟩ :=
        process_core_ok fs orgL (fun g hg => hall g (List.mem_cons_of_mem f hg))
          (fun g hg => hlen g (List.mem_cons_of_mem f hg))
      refine ⟨⟨f.qname, f.sname, 0, hs, (0 : Rat) / (sn : Rat), (0 : Rat) / (qn : Rat), 0⟩
          :: rows, true, ?_, ?_, rfl, ?_⟩
      · simp only [process_deltadir_core, hp, Except.bind, dictGet, hqn, hsn,
          if_neg hqn0, if_neg hsn0, hcore]
        norm_num
      · rw [process_deltadir]
        have : process_deltadir_core (f :: fs) orgL
            = Except.ok (⟨f.qname, f.sname, 0, hs, (0 : Rat) / (sn : Rat),
                (0 : Rat) / (qn : Rat), 0⟩ :: rows, true) := by
          simp only [process_deltadir_core, hp, Except.bind, dictGet, hqn, hsn,
            if_neg hqn0, if_neg hsn0, hcore]
          norm_num
        rw [this]
        rfl
      · exact ⟨_, List.mem_cons_self _ _, rfl, rfl, rfl, rfl⟩
    · -- the degenerate file is in the tail
      obtain ⟨rows, flag, hcore, hret, hflag, row, hrow, hrprops⟩ :=
        ih hf' (fun g hg => hall g (List.mem_cons_of_mem _ hg))
          (fun g hg => hlen g (List.mem_cons_of_mem _ hg))
      have hstep : process_deltadir_core (g :: fs) orgL
          = Except.ok (⟨g.qname, g.sname, p.1, p.2, (p.1 : Rat) / (sn : Rat),
              (p.1 : Rat) / (qn : Rat),
              (if p.1 = 0 then ((0 : Rat), true)
                else (1 - (p.2 : Rat) / (p.1 : Rat), false)).1⟩
            :: rows,
            (if p.1 = 0 then ((0 : Rat), true)
              else (1 - (p.2 : Rat) / (p.1 : Rat), false)).2 || flag) := by
        simp only [process_deltadir_core, hp, Except.bind, dictGet, hqn, hsn,
          if_neg hqn0, if_neg hsn0, hcore]
      refine ⟨_, _, hstep, ?_, ?_, ?_⟩
      · rw [process_deltadir, hstep]
        rfl
      · rw [hflag, Bool.or_true]
      · exact ⟨row, List.mem_cons_of_mem _ hrow, hrprops⟩

/-- C5 amended, witness: a single degenerate file with valid lengths. -/
theorem C5_amended_witness :
    parse_delta ["NUCMER"] = Except.ok (0, 0)
    ∧ ∃ rows flag,
        process_deltadir_core [⟨"A", "B", ["NUCMER"]⟩] [("A", 10), ("B", 10)]
            = Except.ok (rows, flag)
        ∧ process_deltadir [⟨"A", "B", ["NUCMER"]⟩] [("A", 10), ("B", 10)] = Except.ok rows
        ∧ flag = true
        ∧ ∃ row ∈ rows, row.querry = "A" ∧ row.reference = "B"
            ∧ row.ani = 0 ∧ row.alignment_length = 0 :=
  ⟨rfl,
    C5_amended [⟨"A", "B", ["NUCMER"]⟩] [("A", 10), ("B", 10)] ⟨"A", "B", ["NUCMER"]⟩
      (List.mem_singleton_self _) 0 rfl
      (fun g hg => by
        rcases List.mem_singleton.mp hg with rfl
        exact ⟨(0, 0), rfl⟩)
      (fun g hg => by
        rcases List.mem_singleton.mp hg with rfl
        exact ⟨⟨10, by decide, rfl⟩, ⟨10, by decide, rfl⟩⟩)⟩

/-- C10: when a delta file's query or reference name is missing from
`org_lengths`, or maps to a recorded length of 0, the unguarded coverage
divisions raise `KeyError` or `ZeroDivisionError` before any table is
produced, even when every file parses cleanly (the guarded identity
division never gets the chance to absorb the failure). -/
theorem C10_unguarded_length_raises (files : List DeltaFile) (orgL : List (String × Nat))
    (hall : ∀ f ∈ files, ∃ p, parse_delta f.lines = Except.ok p)
    (hbad : ∃ f ∈ files, orgL.lookup f.qname = none ∨ orgL.lookup f.qname = some 0
        ∨ orgL.lookup f.sname = none ∨ orgL.lookup f.sname = some 0) :
    ∃ e, process_deltadir files orgL = Except.error e
      ∧ ((∃ k, e = PyErr.keyError k) ∨ e = PyErr.zeroDivisionError) := by
  induction files with
  | nil =>
    obtain ⟨f, hf, _⟩ := hbad
    cases hf
  | cons f fs ih =>
    obtain ⟨p, hp⟩ := hall f (List.mem_cons_self f fs)
    rcases hq : orgL.lookup f.qname with _ | qn
    · refine ⟨PyErr.keyError f.qname, ?_, Or.inl ⟨f.qname, rfl⟩⟩
      rw [process_deltadir_error_iff]
      simp only [process_deltadir_core, hp, Except.bind, dictGet, hq]
    · by_cases hq0 : qn = 0
      · subst hq0
        refine ⟨PyErr.zeroDivisionError, ?_, Or.inr rfl⟩
        rw [process_deltadir_error_iff]
        simp only [process_deltadir_core, hp, Except.bind, dictGet, hq, if_pos rfl, if_true]
      · rcases hsl : orgL.lookup f.sname with _ | sn
        · refine ⟨PyErr.keyError f.sname, ?_, Or.inl ⟨f.sname, rfl⟩⟩
          rw [process_deltadir_error_iff]
          simp only [process_deltadir_core, hp, Except.bind, dictGet, hq, hsl, if_neg hq0]
        · by_cases hs0 : sn = 0
          · subst hs0
            refine ⟨PyErr.zeroDivisionError, ?_, Or.inr rfl⟩
            rw [process_deltadir_error_iff]
            simp only [process_deltadir_core, hp, Except.bind, dictGet, hq, hsl,
              if_neg hq0, if_pos rfl, if_true]
          · have hbad' : ∃ g ∈ fs,
                orgL.lookup g.qname = none ∨ orgL.lookup g.qname = some 0
                  ∨ orgL.lookup g.sname = none ∨ orgL.lookup g.sname = some 0 := by
              obtain ⟨g, hg, hcase⟩ := hbad
              rcases List.mem_cons.mp hg with rfl | hg'
              · rcases hcase with h | h | h | h
                · rw [hq] at h; cases h
                · rw [hq] at h; exact absurd (Option.some.inj h) hq0
                · rw [hsl] at h; cases h
                · rw [hsl] at h; exact absurd (Option.some.inj h) hs0
              · exact ⟨g, hg', hcase⟩
            obtain ⟨e, he, hkind⟩ :=
              ih (fun g hg => hall g (List.mem_cons_of_mem f hg)) hbad'
            refine ⟨e, ?_, hkind⟩
            rw [process_deltadir_error_iff] at he ⊢
            simp only [process_deltadir_core, hp, Except.bind, dictGet, hq, hsl,
              if_neg hq0, if_neg hs0, he]

/-- C10 witness: one cleanly parsing file whose query genome is absent from
the length mapping: the run aborts with `KeyError` instead of returning a
partial table. -/
theorem C10_witness :
    parse_delta ["NUCMER"] = Except.ok (0, 0)
    ∧ List.lookup "A" [("B", (10 : Nat))] = none
    ∧ ∃ e, process_deltadir [⟨"A", "B", ["NUCMER"]⟩] [("B", 10)] = Except.error e
        ∧ ((∃ k, e = PyErr.keyError k) ∨ e = PyErr.zeroDivisionError) :=
  ⟨rfl, rfl,
    C10_unguarded_length_raises [⟨"A", "B", ["NUCMER"]⟩] [("B", 10)]
      (fun g hg => by
        rcases List.mem_singleton.mp hg with rfl
        exact ⟨(0, 0), rfl⟩)
      ⟨⟨"A", "B", ["NUCMER"]⟩, List.mem_singleton_self _, Or.inl rfl⟩⟩

/-! ### Claim theorems: the fine thresholds are hard-coded -/

theorem edge_make_graph_anin {df : List NRow} {c a : Rat} {u v : String} :
    edgeRel (make_graph_anin df c a).edges u v
      ↔ ∃ r ∈ df, (r.ref_coverage > c ∧ r.ani > a)
          ∧ ((u = r.reference ∧ v = r.querry) ∨ (u = r.querry ∧ v = r.reference)) := by
  rw [make_graph_anin_edges]
  unfold edgeRel
  constructor
  · rintro (h | h)
    · obtain ⟨r, hr, hs, he⟩ := mem_aninPairs.mp h
      exact ⟨r, hr, hs, Or.inl ⟨congrArg Prod.fst he, congrArg Prod.snd he⟩⟩
    · obtain ⟨r, hr, hs, he⟩ := mem_aninPairs.mp h
      exact ⟨r, hr, hs, Or.inr ⟨congrArg Prod.snd he, congrArg Prod.fst he⟩⟩
  · rintro ⟨r, hr, hs, (⟨rfl, rfl⟩ | ⟨rfl, rfl⟩)⟩
    · exact Or.inl (mem_aninPairs.mpr ⟨r, hr, hs, rfl⟩)
    · exact Or.inr (mem_aninPairs.mpr ⟨r, hr, hs, rfl⟩)

unseal Rat.mul Rat.inv Rat.sub Rat.add in
/-- C4 counterexample: the caller passes `ANIn = 0.5`; the pair A-B has
`ani = 0.7 > 0.5` and `ref_coverage = 0.9 > 0.5`, so by the claim the fine
graph for their (single) coarse cluster must contain the edge A-B and they
must share a fine cluster.  The code instead compares against the
hard-coded `0.99` and separates them into the fine clusters `0_0`/`0_1`. -/
theorem C4_counterexample :
    cluster_genomes [⟨"A", "a.fa"⟩, ⟨"B", "b.fa"⟩]
        [⟨"A", "B", mkRat 95 100⟩, ⟨"B", "A", mkRat 95 100⟩]
        (fun c => if c = 0 then
            [⟨"A", "B", ["1 91 1 91 27 0 0"]⟩, ⟨"B", "A", ["1 91 1 91 27 0 0"]⟩]
          else [])
        (fun _ => 100) (mkRat 9 10) (mkRat 1 2) false false
      = Except.ok ([⟨"B", "0_0", 0⟩, ⟨"A", "0_1", 0⟩],
          [⟨"A", "B", mkRat 95 100⟩, ⟨"B", "A", mkRat 95 100⟩],
          [(⟨"A", "B", 90, 27, mkRat 9 10, mkRat 9 10, mkRat 7 10⟩, 0),
            (⟨"B", "A", 90, 27, mkRat 9 10, mkRat 9 10, mkRat 7 10⟩, 0)]) := by
  decide

/-- C4 amended: the fine-pass thresholds are the literals of the call
`cluster_anin_database(Cdb, Ndb, ANIn=.99, cov_thresh=0.5)`: the result of
`cluster_genomes` is entirely independent of its `ANIn` argument, and the
fine graph of a coarse cluster contains an edge between two genomes iff
some row of that cluster's table relates them with
`ref_coverage > 0.5 AND ani > 0.99`. -/
theorem C4_amended (Bdb : List BRow) (Mdb : List MRow) (deltas : Nat → List DeltaFile)
    (fasta_length : String → Nat) (MASH_ANI ANIn ANIn2 : Rat) (sM sA : Bool)
    (Cdb : List (Nat × String)) (Ndb : List (NRow × Nat)) (cluster : Nat) (u v : String) :
    cluster_genomes Bdb Mdb deltas fasta_length MASH_ANI ANIn sM sA
        = cluster_genomes Bdb Mdb deltas fasta_length MASH_ANI ANIn2 sM sA
    ∧ (edgeRel (make_graph_anin (fineTable Cdb Ndb cluster) ((1 : Rat) / 2)
          ((99 : Rat) / 100)).edges u v
        ↔ ∃ r ∈ fineTable Cdb Ndb cluster,
            (r.ref_coverage > (1 : Rat) / 2 ∧ r.ani > (99 : Rat) / 100)
            ∧ ((u = r.reference ∧ v = r.querry) ∨ (u = r.querry ∧ v = r.reference))) :=
  ⟨rfl, edge_make_graph_anin⟩

/-! ### Claim theorems: self-pair rows -/

theorem Conn_of_edge_cases {es es' : List (String × String)}
    (h : ∀ a b, edgeRel es a b → a = b ∨ edgeRel es' a b) {u v : String}
    (hc : Conn es u v) : Conn es' u v := by
  induction hc with
  | refl => exact Conn.refl
  | tail _ hstep ih =>
    rcases h _ _ hstep with rfl | he
    · exact ih
    · exact Relation.ReflTransGen.tail ih he

unseal Rat.mul Rat.inv Rat.sub Rat.add in
/-- C9 counterexample: a genome appearing only in self-pair rows is kept
(in a singleton cluster) when self rows are included, but vanishes from the
clustering entirely when they are removed — the two clusterings differ. -/
theorem C9_counterexample :
    cluster_database [⟨"A", "A", (1 : Rat)⟩] (mkRat 9 10) = [(0, "A")]
      ∧ cluster_database
          (([⟨"A", "A", (1 : Rat)⟩] : List MRow).filter
            (fun r => !decide (r.genome1 = r.genome2))) (mkRat 9 10) = [] := by
  constructor
  · decide
  · decide

theorem C9_nodes_iff {df : List MRow} {t : Rat}
    (hcov : ∀ r ∈ df, r.genome1 = r.genome2 →
      ∃ q ∈ df, q.genome1 ≠ q.genome2 ∧ q.genome1 = r.genome1) (x : String) :
    x ∈ (make_graph df t).nodes
      ↔ x ∈ (make_graph (df.filter (fun r => !decide (r.genome1 = r.genome2))) t).nodes := by
  rw [mem_make_graph_nodes, mem_make_graph_nodes]
  constructor
  · rintro (hx | ⟨r, hr, hs, hx⟩)
    · obtain ⟨r, hr, hg1⟩ := List.mem_map.mp hx
      by_cases hself : r.genome1 = r.genome2
      · obtain ⟨q, hq, hqne, hqg⟩ := hcov r hr hself
        exact Or.inl (List.mem_map.mpr
          ⟨q, List.mem_filter.mpr ⟨hq, by simp [hqne]⟩, by rw [hqg, hg1]⟩)
      · exact Or.inl (List.mem_map.mpr
          ⟨r, List.mem_filter.mpr ⟨hr, by simp [hself]⟩, hg1⟩)
    · by_cases hself : r.genome1 = r.genome2
      · have hx1 : x = r.genome1 := by
          rcases hx with rfl | rfl
          · rfl
          · exact hself.symm
        obtain ⟨q, hq, hqne, hqg⟩ := hcov r hr hself
        exact Or.inl (List.mem_map.mpr
          ⟨q, List.mem_filter.mpr ⟨hq, by simp [hqne]⟩, by rw [hqg, ← hx1]⟩)
      · exact Or.inr ⟨r, List.mem_filter.mpr ⟨hr, by simp [hself]⟩, hs, hx⟩
  · rintro (hx | ⟨r, hr, hs, hx⟩)
    · obtain ⟨r, hr, hg⟩ := List.mem_map.mp hx
      exact Or.inl (List.mem_map.mpr ⟨r, (List.mem_filter.mp hr).1, hg⟩)
    · exact Or.inr ⟨r, (List.mem_filter.mp hr).1, hs, hx⟩

theorem C9_conn_iff {df : List MRow} {t : Rat} (u v : String) :
    Conn (make_graph df t).edges u v
      ↔ Conn (make_graph (df.filter (fun r => !decide (r.genome1 = r.genome2))) t).edges u v := by
  constructor
  · apply Conn_of_edge_cases
    intro a b hab
    rw [make_graph_edges] at hab
    have hstep : ∀ (a b : String), ∀ r ∈ df, r.similarity > t
        → (a, b) = (r.genome1, r.genome2)
        → a = b ∨ edgeRel (make_graph
            (df.filter (fun r => !decide (r.genome1 = r.genome2))) t).edges a b := by
      intro a b r hr hs he
      by_cases hself : r.genome1 = r.genome2
      · left
        have h1 : a = r.genome1 := congrArg Prod.fst he
        have h2 : b = r.genome2 := congrArg Prod.snd he
        rw [h1, h2, hself]
      · right
        rw [make_graph_edges]
        exact Or.inl (mem_mashPairs.mpr
          ⟨r, List.mem_filter.mpr ⟨hr, by simp [hself]⟩, hs, he⟩)
    rcases hab with hm | hm
    · obtain ⟨r, hr, hs, he⟩ := mem_mashPairs.mp hm
      exact hstep a b r hr hs he
    · obtain ⟨r, hr, hs, he⟩ := mem_mashPairs.mp hm
      rcases hstep b a r hr hs he with hab | hab
      · exact Or.inl hab.symm
      · exact Or.inr (edgeRel_symm hab)
  · apply Conn.mono
    intro a b hab
    rw [make_graph_edges] at hab ⊢
    rcases hab with hm | hm
    · obtain ⟨r, hr, hs, he⟩ := mem_mashPairs.mp hm
      exact Or.inl (mem_mashPairs.mpr ⟨r, (List.mem_filter.mp hr).1, hs, he⟩)
    · obtain ⟨r, hr, hs, he⟩ := mem_mashPairs.mp hm
      exact Or.inr (mem_mashPairs.mpr ⟨r, (List.mem_filter.mp hr).1, hs, he⟩)

/-- C9 amended: provided every genome named by a self-pair row also appears
in the `genome1` column of some non-self row, including or excluding the
self-pair rows yields the same clustering relation: the same genomes are
clustered and the same pairs share a cluster (cluster ids may be assigned
in a different order).  Without the proviso the claim fails (see the
counterexample): a genome appearing only in self-pair rows is dropped with
them. -/
theorem C9_amended (df : List MRow) (t : Rat)
    (hcov : ∀ r ∈ df, r.genome1 = r.genome2 →
      ∃ q ∈ df, q.genome1 ≠ q.genome2 ∧ q.genome1 = r.genome1) :
    ∀ g h : String,
      sameCluster (cluster_database df t) g h
        ↔ sameCluster (cluster_database
            (df.filter (fun r => !decide (r.genome1 = r.genome2))) t) g h := by
  intro g h
  show sameCluster (cluster_graph (make_graph df t)) g h ↔ sameCluster (cluster_graph _) g h
  rw [sameCluster_iff_conn, sameCluster_iff_conn]
  rw [← C9_nodes_iff hcov g, ← C9_nodes_iff hcov h, ← C9_conn_iff g h]

unseal Rat.mul Rat.inv Rat.sub Rat.add in
/-- C9 amended, witness: a table with one self row and one non-self row
covering the same genome. -/
theorem C9_amended_witness :
    (∀ r ∈ ([⟨"A", "A", (1 : Rat)⟩, ⟨"A", "B", mkRat 95 100⟩] : List MRow),
      r.genome1 = r.genome2 →
        ∃ q ∈ ([⟨"A", "A", (1 : Rat)⟩, ⟨"A", "B", mkRat 95 100⟩] : List MRow),
          q.genome1 ≠ q.genome2 ∧ q.genome1 = r.genome1)
    ∧ ∀ g h : String,
        sameCluster (cluster_database
          [⟨"A", "A", (1 : Rat)⟩, ⟨"A", "B", mkRat 95 100⟩] (mkRat 9 10)) g h
        ↔ sameCluster (cluster_database
            (([⟨"A", "A", (1 : Rat)⟩, ⟨"A", "B", mkRat 95 100⟩] : List MRow).filter
              (fun r => !decide (r.genome1 = r.genome2))) (mkRat 9 10)) g h :=
  ⟨by decide,
    C9_amended [⟨"A", "A", (1 : Rat)⟩, ⟨"A", "B", mkRat 95 100⟩] (mkRat 9 10) (by decide)⟩

/-! ### Claim theorems: threshold monotonicity of the cluster count -/

theorem mashPairs_anti {df : List MRow} {t1 t2 : Rat} (h : t1 ≤ t2)
    {p : String × String} (hp : p ∈ mashPairs df t2) : p ∈ mashPairs df t1 := by
  obtain ⟨r, hr, hs, he⟩ := mem_mashPairs.mp hp
  exact mem_mashPairs.mpr ⟨r, hr, lt_of_le_of_lt h hs, he⟩

theorem edgeRel_anti {df : List MRow} {t1 t2 : Rat} (h : t1 ≤ t2) {a b : String}
    (hab : edgeRel (make_graph df t2).edges a b) :
    edgeRel (make_graph df t1).edges a b := by
  rw [make_graph_edges] at hab ⊢
  rcases hab with hm | hm
  · exact Or.inl (mashPairs_anti h hm)
  · exact Or.inr (mashPairs_anti h hm)

theorem make_graph_nodes_anti {df : List MRow} {t1 t2 : Rat} (h : t1 ≤ t2) {x : String}
    (hx : x ∈ (make_graph df t2).nodes) : x ∈ (make_graph df t1).nodes := by
  rw [mem_make_graph_nodes] at hx ⊢
  rcases hx with hx | ⟨r, hr, hs, he⟩
  · exact Or.inl hx
  · exact Or.inr ⟨r, hr, lt_of_le_of_lt h hs, he⟩

/-- The distinct component representatives of `make_graph df t` are already
realised on the `genome1` column: every extra node created by an edge is
connected to that edge's `genome1` end. -/
theorem repSet_eq (df : List MRow) (t : Rat) :
    ((make_graph df t).nodes.map (rep (make_graph df t))).toFinset
      = ((df.map MRow.genome1).map (rep (make_graph df t))).toFinset := by
  ext x
  rw [List.mem_toFinset, List.mem_toFinset, List.mem_map, List.mem_map]
  constructor
  · rintro ⟨v, hv, rfl⟩
    rcases mem_make_graph_nodes.mp hv with hv0 | ⟨r, hr, hs, hx⟩
    · exact ⟨v, hv0, rfl⟩
    · rcases hx with rfl | rfl
      · exact ⟨r.genome1, List.mem_map.mpr ⟨r, hr, rfl⟩, rfl⟩
      · have hedge : (r.genome1, r.genome2) ∈ (make_graph df t).edges := by
          rw [make_graph_edges]
          exact mem_mashPairs.mpr ⟨r, hr, hs, rfl⟩
        have hconn : Conn (make_graph df t).edges r.genome2 r.genome1 :=
          Conn.single (Or.inr hedge)
        have hrw := rep_eq_of_conn hconn hv
        exact ⟨r.genome1, List.mem_map.mpr ⟨r, hr, rfl⟩, hrw.symm⟩
  · rintro ⟨v, hv, rfl⟩
    exact ⟨v, mem_make_graph_nodes.mpr (Or.inl hv), rfl⟩

/-- C8: raising the threshold never decreases the number of distinct
clusters produced by building the mash graph and clustering it: with
`t1 ≤ t2`, the run at `t2` has at least as many distinct cluster ids as
the run at `t1`. -/
theorem C8_threshold_monotonicity (df : List MRow) (t1 t2 : Rat) (h : t1 ≤ t2) :
    numClusters (cluster_database df t1) ≤ numClusters (cluster_database df t2) := by
  show numClusters (cluster_graph (make_graph df t1))
    ≤ numClusters (cluster_graph (make_graph df t2))
  rw [numClusters_cluster_graph, numClusters_cluster_graph, repSet_eq df t1, repSet_eq df t2]
  have hkey : ∀ v ∈ df.map MRow.genome1,
      rep (make_graph df t1) (rep (make_graph df t2) v) = rep (make_graph df t1) v := by
    intro v hv
    have hv2 : v ∈ (make_graph df t2).nodes := mem_make_graph_nodes.mpr (Or.inl hv)
    have hconn2 : Conn (make_graph df t2).edges (rep (make_graph df t2) v) v :=
      (rep_spec hv2).2
    have hconn1 : Conn (make_graph df t1).edges (rep (make_graph df t2) v) v :=
      Conn.mono (fun a b hab => edgeRel_anti h hab) hconn2
    exact rep_eq_of_conn hconn1 (make_graph_nodes_anti h (rep_spec hv2).1)
  have himg : ((df.map MRow.genome1).map (rep (make_graph df t1))).toFinset
      = (((df.map MRow.genome1).map (rep (make_graph df t2))).toFinset).image
          (rep (make_graph df t1)) := by
    ext x
    rw [List.mem_toFinset, List.mem_map, Finset.mem_image]
    constructor
    · rintro ⟨v, hv, rfl⟩
      exact ⟨rep (make_graph df t2) v,
        List.mem_toFinset.mpr (List.mem_map.mpr ⟨v, hv, rfl⟩), hkey v hv⟩
    · rintro ⟨y, hy, rfl⟩
      obtain ⟨v, hv, rfl⟩ := List.mem_map.mp (List.mem_toFinset.mp hy)
      exact ⟨v, hv, (hkey v hv).symm⟩
  rw [himg]
  exact Finset.card_image_le

unseal Rat.mul Rat.inv Rat.sub Rat.add in
/-- C8 witness: a concrete table and a concrete pair of thresholds. -/
theorem C8_witness :
    (mkRat 1 2 ≤ mkRat 9 10)
    ∧ numClusters (cluster_database
          [⟨"A", "B", mkRat 95 100⟩, ⟨"B", "C", mkRat 7 10⟩] (mkRat 1 2))
        ≤ numClusters (cluster_database
            [⟨"A", "B", mkRat 95 100⟩, ⟨"B", "C", mkRat 7 10⟩] (mkRat 9 10)) :=
  ⟨by decide,
    C8_threshold_monotonicity [⟨"A", "B", mkRat 95 100⟩, ⟨"B", "C", mkRat 7 10⟩]
      (mkRat 1 2) (mkRat 9 10) (by decide)⟩

/-! ### Support for the completeness theorem (C1) -/

theorem nodup_getD_inj {l : List String} (h : l.Nodup) {i j : Nat} (hi : i < l.length)
    (hj : j < l.length) (he : l.getD i "" = l.getD j "") : i = j := by
  induction l generalizing i j with
  | nil => simp at hi
  | cons a l ih =>
    obtain ⟨hna, hnd⟩ := List.nodup_cons.mp h
    cases i with
    | zero =>
      cases j with
      | zero => rfl
      | succ j =>
        rw [List.getD_cons_zero, List.getD_cons_succ] at he
        exact absurd (he ▸ getD_mem (by simpa using hj)) hna
    | succ i =>
      cases j with
      | zero =>
        rw [List.getD_cons_succ, List.getD_cons_zero] at he
        exact absurd (he ▸ getD_mem (by simpa using hi) : a ∈ l) hna
      | succ j =>
        rw [List.getD_cons_succ, List.getD_cons_succ] at he
        rw [ih hnd (by simpa using hi) (by simpa using hj) he]

/-- A genome receives exactly one cluster id from `cluster_graph`. -/
theorem cluster_graph_unique {G : Graph} {c1 c2 : Nat} {g : String}
    (h1 : (c1, g) ∈ cluster_graph G) (h2 : (c2, g) ∈ cluster_graph G) : c1 = c2 := by
  obtain ⟨hl1, he1, _⟩ := mem_cluster_graph.mp h1
  obtain ⟨hl2, he2, _⟩ := mem_cluster_graph.mp h2
  exact nodup_getD_inj nodup_uniqueF hl1 hl2 (he1.trans he2.symm)

theorem mem_membersOf {Cdb : List (Nat × String)} {c : Nat} {g : String} :
    g ∈ membersOf Cdb c ↔ (c, g) ∈ Cdb := by
  rw [membersOf, List.mem_map]
  constructor
  · rintro ⟨r, hr, rfl⟩
    obtain ⟨hmem, hfst⟩ := List.mem_filter.mp hr
    rw [decide_eq_true_eq] at hfst
    rw [show (c, r.2) = r from Prod.ext hfst.symm rfl]
    exact hmem
  · intro hm
    exact ⟨(c, g), List.mem_filter.mpr ⟨hm, by simp⟩, rfl⟩

theorem mem_mergeBC {Bdb : List BRow} {Cdb : List (Nat × String)} {b : BRow} {c : Nat} :
    (b, c) ∈ mergeBC Bdb Cdb ↔ b ∈ Bdb ∧ (c, b.genome) ∈ Cdb := by
  rw [mergeBC, List.mem_flatMap]
  constructor
  · rintro ⟨b', hb', hmem⟩
    obtain ⟨cr, hcr, he⟩ := List.mem_map.mp hmem
    obtain ⟨hcmem, hcg⟩ := List.mem_filter.mp hcr
    rw [decide_eq_true_eq] at hcg
    have hb : b' = b := congrArg Prod.fst he
    have hc : cr.1 = c := congrArg Prod.snd he
    subst hb
    refine ⟨hb', ?_⟩
    rw [show (c, b'.genome) = cr from Prod.ext hc.symm hcg.symm]
    exact hcmem
  · rintro ⟨hb, hc⟩
    exact ⟨b, hb, List.mem_map.mpr ⟨(c, b.genome),
      List.mem_filter.mpr ⟨hc, by simp⟩, rfl⟩⟩

theorem process_deltadir_ok_of_core {files : List DeltaFile} {orgL : List (String × Nat)}
    {rows : List NRow} {flag : Bool}
    (h : process_deltadir_core files orgL = Except.ok (rows, flag)) :
    process_deltadir files orgL = Except.ok rows := by
  rw [process_deltadir, h]
  rfl

theorem map_eq_mem_left {α β γ : Type} {f : α → γ} {g : β → γ} {l1 : List α} {l2 : List β}
    (h : l1.map f = l2.map g) : ∀ x ∈ l1, ∃ y ∈ l2, f x = g y := by
  intro x hx
  have hm : f x ∈ l2.map g := h ▸ List.mem_map_of_mem f hx
  obtain ⟨y, hy, he⟩ := List.mem_map.mp hm
  exact ⟨y, hy, he.symm⟩

/-- `collectNdb` over a cluster list whose directories all parse: the
resulting `Ndb` tags every row with its cluster and corresponds file-wise
to the delta directories, in both directions. -/
theorem collectNdb_spec (deltas : Nat → List DeltaFile) (orgL : List (String × Nat))
    (cs : List Nat)
    (hok : ∀ c ∈ cs, ∃ rows, process_deltadir (deltas c) orgL = Except.ok rows
        ∧ rows.map (fun r => (r.querry, r.reference))
            = (deltas c).map (fun f => (f.qname, f.sname))) :
    ∃ Ndb, collectNdb deltas orgL cs = Except.ok Ndb
      ∧ (∀ rc ∈ Ndb, rc.2 ∈ cs
          ∧ ∃ f ∈ deltas rc.2, rc.1.querry = f.qname ∧ rc.1.reference = f.sname)
      ∧ (∀ c ∈ cs, ∀ f ∈ deltas c,
          ∃ rc ∈ Ndb, rc.2 = c ∧ rc.1.reference = f.sname ∧ rc.1.querry = f.qname) := by
  induction cs with
  | nil => exact ⟨[], rfl, fun rc hrc => absurd hrc (List.not_mem_nil rc), fun c hc => absurd hc (List.not_mem_nil c)⟩
  | cons c cs ih =>
    obtain ⟨rows, hrows, hmap⟩ := hok c (List.mem_cons_self c cs)
    obtain ⟨Ndb, hNdb, hall, hcov⟩ := ih (fun c' hc' => hok c' (List.mem_cons_of_mem c hc'))
    refine ⟨rows.map (fun r => (r, c)) ++ Ndb, ?_, ?_, ?_⟩
    · show (process_deltadir (deltas c) orgL).bind _ = _
      rw [hrows, hNdb]
      rfl
    · intro rc hrc
      rcases List.mem_append.mp hrc with hrc | hrc
      · obtain ⟨r, hr, rfl⟩ := List.mem_map.mp hrc
        obtain ⟨f, hf, he⟩ := map_eq_mem_left hmap r hr
        exact ⟨List.mem_cons_self c cs,
          f, hf, congrArg Prod.fst he, congrArg Prod.snd he⟩
      · obtain ⟨hcs, hf⟩ := hall rc hrc
        exact ⟨List.mem_cons_of_mem c hcs, hf⟩
    · intro c' hc' f hf
      rcases List.mem_cons.mp hc' with rfl | hc'
      · obtain ⟨r, hr, he⟩ := map_eq_mem_left hmap.symm f hf
        refine ⟨(r, c'), List.mem_append_left _ (List.mem_map_of_mem _ hr), rfl,
          (congrArg Prod.snd he).symm, (congrArg Prod.fst he).symm⟩
      · obtain ⟨rc, hrc, hprops⟩ := hcov c' hc' f hf
        exact ⟨rc, List.mem_append_right _ hrc, hprops⟩

theorem anin_nodes_iff {d : List NRow} {M : List String} {cov ani : Rat}
    (hda : ∀ r ∈ d, r.reference ∈ M ∧ r.querry ∈ M)
    (hdb : ∀ g ∈ M, ∃ r ∈ d, r.reference = g) (x : String) :
    x ∈ (make_graph_anin d cov ani).nodes ↔ x ∈ M := by
  rw [mem_make_graph_anin_nodes]
  constructor
  · rintro (hx | ⟨r, hr, _, hx⟩)
    · obtain ⟨r, hr, rfl⟩ := List.mem_map.mp hx
      exact (hda r hr).1
    · rcases hx with rfl | rfl
      · exact (hda r hr).1
      · exact (hda r hr).2
  · intro hx
    obtain ⟨r, hr, he⟩ := hdb x hx
    exact Or.inl (List.mem_map.mpr ⟨r, hr, he⟩)

/-- Regrouping the genome column of a cluster table by distinct cluster ids
is a permutation of the genome column. -/
theorem regroup_snd_perm (out : List (Nat × String)) :
    ((uniqueF (out.map Prod.fst)).flatMap
      (fun c => (out.filter (fun r => decide (r.1 = c))).map Prod.snd)).Perm
      (out.map Prod.snd) := by
  have h1 : (uniqueF (out.map Prod.fst)).flatMap
      (fun c => (out.filter (fun r => decide (r.1 = c))).map Prod.snd)
    = ((uniqueF (out.map Prod.fst)).flatMap
        (fun c => out.filter (fun r => decide (r.1 = c)))).map Prod.snd :=
    (List.map_flatMap Prod.snd _ _).symm
  rw [h1]
  refine List.Perm.map Prod.snd ?_
  refine regroup_perm Prod.fst (uniqueF (out.map Prod.fst)) out nodup_uniqueF ?_
  intro r _
  rw [mem_uniqueF]
  exact List.mem_map_of_mem Prod.fst ‹r ∈ out›

theorem aninBlock_fst_perm (Cdb : List (Nat × String)) (Ndb : List (NRow × Nat))
    (ANIn cov : Rat) (cluster : Nat) :
    ((aninBlock Cdb Ndb ANIn cov cluster).map Prod.fst).Perm
      ((cluster_graph (make_graph_anin (fineTable Cdb Ndb cluster) cov ANIn)).map
        Prod.snd) := by
  have h1 : (aninBlock Cdb Ndb ANIn cov cluster).map Prod.fst
      = (uniqueF ((cluster_graph (make_graph_anin (fineTable Cdb Ndb cluster)
            cov ANIn)).map Prod.fst)).flatMap
          (fun clust => ((cluster_graph (make_graph_anin (fineTable Cdb Ndb cluster)
            cov ANIn)).filter (fun r => decide (r.1 = clust))).map Prod.snd) := by
    rw [aninBlock, List.map_flatMap]
    congr 1
    funext clust
    rw [List.map_map]
    simp
  rw [h1]
  exact regroup_snd_perm _

theorem aninBlock_count {Cdb : List (Nat × String)} {Ndb : List (NRow × Nat)}
    {ANIn cov : Rat} {cluster : Nat}
    (hnodes : ∀ x, x ∈ (make_graph_anin (fineTable Cdb Ndb cluster) cov ANIn).nodes
      ↔ x ∈ membersOf Cdb cluster) (g : String) :
    ((aninBlock Cdb Ndb ANIn cov cluster).map Prod.fst).count g
      = if g ∈ membersOf Cdb cluster then 1 else 0 := by
  rw [(aninBlock_fst_perm Cdb Ndb ANIn cov cluster).count_eq]
  rw [count_cluster_graph (make_graph_anin_nodes_nodup _ _ _) g]
  by_cases h : g ∈ membersOf Cdb cluster
  · rw [if_pos ((hnodes g).mpr h), if_pos h]
  · rw [if_neg (fun hc => h ((hnodes g).mp hc)), if_neg h]

theorem count_flatMap_fst (cs : List Nat) (bf : Nat → List (String × String)) (g : String) :
    ((cs.flatMap bf).map Prod.fst).count g
      = (cs.map (fun c => ((bf c).map Prod.fst).count g)).sum := by
  induction cs with
  | nil => rfl
  | cons c cs ih =>
    rw [List.flatMap_cons, List.map_append, List.count_append, ih, List.map_cons,
      List.sum_cons]

theorem sum_zero_of_all_zero {f : Nat → Nat} :
    ∀ {cs : List Nat}, (∀ c ∈ cs, f c = 0) → (cs.map f).sum = 0
  | [], _ => rfl
  | c :: cs, h => by
    rw [List.map_cons, List.sum_cons, h c (List.mem_cons_self c cs),
      sum_zero_of_all_zero (fun c' hc' => h c' (List.mem_cons_of_mem c hc'))]

theorem sum_indicator_of_unique {f : Nat → Nat} {c0 : Nat} :
    ∀ {cs : List Nat}, cs.Nodup → c0 ∈ cs →
      (∀ c ∈ cs, f c = if c = c0 then 1 else 0) → (cs.map f).sum = 1
  | [], _, hc0, _ => absurd hc0 (List.not_mem_nil c0)
  | c :: cs, hnd, hc0, hf => by
    obtain ⟨hna, hnd'⟩ := List.nodup_cons.mp hnd
    rw [List.map_cons, List.sum_cons]
    rcases List.mem_cons.mp hc0 with he | hc0'
    · subst he
      rw [hf c0 (List.mem_cons_self c0 cs), if_pos rfl]
      have hz : (cs.map f).sum = 0 := by
        apply sum_zero_of_all_zero
        intro c' hc'
        rw [hf c' (List.mem_cons_of_mem c0 hc'),
          if_neg (fun he2 : c' = c0 => hna (he2 ▸ hc'))]
      rw [hz]
    · have hne : c ≠ c0 := fun he => hna (he ▸ hc0')
      rw [hf c (List.mem_cons_self c cs), if_neg hne,
        sum_indicator_of_unique hnd' hc0'
          (fun c' hc' => hf c' (List.mem_cons_of_mem c hc'))]

theorem beq_decide (a b : String) : (a == b) = decide (a = b) := by
  by_cases h : a = b <;> simp [h]

theorem mergeGC_count (Gdb : List (String × String)) (Cdb : List (Nat × String))
    (g : String) :
    ((mergeGC Gdb Cdb).map FRow.genome).count g
      = ((Gdb.map Prod.fst).count g) * ((Cdb.map Prod.snd).count g) := by
  induction Gdb with
  | nil => simp [mergeGC]
  | cons gr Gdb ih =>
    rw [mergeGC, List.flatMap_cons, List.map_append, List.count_append]
    rw [show Gdb.flatMap (fun gp =>
        (Cdb.filter (fun c => decide (c.2 = gp.1))).map
          (fun c => (⟨gp.1, gp.2, c.1⟩ : FRow))) = mergeGC Gdb Cdb from rfl, ih]
    have h1 : (((Cdb.filter (fun c => decide (c.2 = gr.1))).map
        (fun c => (⟨gr.1, gr.2, c.1⟩ : FRow))).map FRow.genome)
        = (Cdb.filter (fun c => decide (c.2 = gr.1))).map (fun _ => gr.1) := by
      rw [List.map_map]
      rfl
    have hflen : (Cdb.filter (fun c => decide (c.2 = gr.1))).length
        = (Cdb.map Prod.snd).count gr.1 := by
      rw [List.count, List.countP_map, ← List.countP_eq_length_filter]
      apply List.countP_congr
      intro c _
      simp [beq_iff_eq]
    have hcons : ((gr :: Gdb).map Prod.fst).count g
        = (Gdb.map Prod.fst).count g + (if gr.1 = g then 1 else 0) := by
      rw [List.map_cons, List.count_cons]
      congr 1
      rw [beq_decide]
      by_cases h : gr.1 = g <;> simp [h]
    rw [h1, hcons]
    by_cases hg : gr.1 = g
    · subst hg
      rw [List.map_const', List.count_replicate_self, hflen, if_pos rfl]
      ring
    · have hz : ((Cdb.filter (fun c => decide (c.2 = gr.1))).map (fun _ => gr.1)).count g
          = 0 := by
        apply List.count_eq_zero_of_not_mem
        intro hmem
        obtain ⟨c, _, he⟩ := List.mem_map.mp hmem
        exact hg he
      rw [hz, if_neg hg]
      ring

theorem mem_fineTable {Cdb : List (Nat × String)} {Ndb : List (NRow × Nat)} {c : Nat}
    {r : NRow} :
    r ∈ fineTable Cdb Ndb c
      ↔ ∃ tag, (r, tag) ∈ Ndb ∧ r.reference ∈ membersOf Cdb c := by
  rw [fineTable, List.mem_map]
  constructor
  · rintro ⟨rc, hrc, rfl⟩
    obtain ⟨hmem, hpred⟩ := List.mem_filter.mp hrc
    rw [decide_eq_true_eq] at hpred
    exact ⟨rc.2, hmem, hpred⟩
  · rintro ⟨tag, hmem, hpred⟩
    exact ⟨(r, tag), List.mem_filter.mpr ⟨hmem, by simpa using hpred⟩, rfl⟩

theorem mem_mergeGC {Gdb : List (String × String)} {Cdb : List (Nat × String)}
    {row : FRow} (h : row ∈ mergeGC Gdb Cdb) :
    ∃ gr ∈ Gdb, ∃ cr ∈ Cdb, cr.2 = gr.1 ∧ row = ⟨gr.1, gr.2, cr.1⟩ := by
  rw [mergeGC, List.mem_flatMap] at h
  obtain ⟨gr, hgr, hmem⟩ := h
  obtain ⟨cr, hcr, he⟩ := List.mem_map.mp hmem
  obtain ⟨hcmem, hcg⟩ := List.mem_filter.mp hcr
  rw [decide_eq_true_eq] at hcg
  exact ⟨gr, hgr, cr, hcmem, hcg, he.symm⟩

theorem aninGdb_label {Cdb : List (Nat × String)} {Ndb : List (NRow × Nat)}
    {ANIn cov : Rat} {pr : String × String}
    (h : pr ∈ aninGdb Cdb Ndb ANIn cov) :
    ∃ (i j : Nat), pr.2 = toString i ++ "_" ++ toString j := by
  rw [aninGdb, List.mem_flatMap] at h
  obtain ⟨c, _, hb⟩ := h
  rw [aninBlock, List.mem_flatMap] at hb
  obtain ⟨clust, _, hm⟩ := hb
  obtain ⟨genome, _, he⟩ := List.mem_map.mp hm
  exact ⟨c, clust, (congrArg Prod.snd he).symm⟩

/-- C1: with the mash table covering exactly the input genomes, every delta
directory parseable and named within its coarse cluster, every cluster
member appearing as a reference (the self-pair file suffices), and nonzero
fasta lengths, `cluster_genomes` (neither stage skipped) succeeds and its
final merged table contains every input genome exactly once, never
duplicated or dropped, labelled with a composite `"{coarse}_{fine}"`
cluster id. -/
theorem C1_completeness (Bdb : List BRow) (Mdb : List MRow)
    (deltas : Nat → List DeltaFile) (fasta_length : String → Nat) (MASH_ANI ANIn : Rat)
    (hBN : (Bdb.map BRow.genome).Nodup)
    (hg1 : ∀ g, g ∈ Mdb.map MRow.genome1 ↔ g ∈ Bdb.map BRow.genome)
    (hg2 : ∀ r ∈ Mdb, r.genome2 ∈ Bdb.map BRow.genome)
    (hflen : ∀ b ∈ Bdb, fasta_length b.location ≠ 0)
    (hparse : ∀ c ∈ uniqueF ((cluster_database Mdb MASH_ANI).map Prod.fst),
      ∀ f ∈ deltas c, ∃ p, parse_delta f.lines = Except.ok p)
    (hnames : ∀ c ∈ uniqueF ((cluster_database Mdb MASH_ANI).map Prod.fst),
      ∀ f ∈ deltas c, f.qname ∈ membersOf (cluster_database Mdb MASH_ANI) c
        ∧ f.sname ∈ membersOf (cluster_database Mdb MASH_ANI) c)
    (hcover : ∀ c ∈ uniqueF ((cluster_database Mdb MASH_ANI).map Prod.fst),
      ∀ g ∈ membersOf (cluster_database Mdb MASH_ANI) c, ∃ f ∈ deltas c, f.sname = g) :
    ∃ F Ndb, cluster_genomes Bdb Mdb deltas fasta_length MASH_ANI ANIn false false
        = Except.ok (F, Mdb, Ndb)
      ∧ (∀ g ∈ Bdb.map BRow.genome, (F.map FRow.genome).count g = 1)
      ∧ (∀ row ∈ F, row.genome ∈ Bdb.map BRow.genome)
      ∧ (∀ row ∈ F, ∃ (i j : Nat), row.ANIn_cluster = toString i ++ "_" ++ toString j) := by
  have hnodesM : ∀ x, x ∈ (make_graph Mdb MASH_ANI).nodes ↔ x ∈ Bdb.map BRow.genome := by
    intro x
    rw [mem_make_graph_nodes]
    constructor
    · rintro (hx | ⟨r, hr, _, hx⟩)
      · exact (hg1 x).mp hx
      · rcases hx with rfl | rfl
        · exact (hg1 r.genome1).mp (List.mem_map_of_mem MRow.genome1 hr)
        · exact hg2 r hr
    · intro hx
      exact Or.inl ((hg1 x).mpr hx)
  have hCcount : ∀ g, ((cluster_database Mdb MASH_ANI).map Prod.snd).count g
      = if g ∈ Bdb.map BRow.genome then 1 else 0 := by
    intro g
    rw [show cluster_database Mdb MASH_ANI
        = cluster_graph (make_graph Mdb MASH_ANI) from rfl]
    rw [count_cluster_graph (make_graph_nodes_nodup Mdb MASH_ANI) g]
    by_cases h : g ∈ Bdb.map BRow.genome
    · rw [if_pos ((hnodesM g).mpr h), if_pos h]
    · rw [if_neg (fun hc => h ((hnodesM g).mp hc)), if_neg h]
  have hCdisj : ∀ c1 c2 g, (c1, g) ∈ cluster_database Mdb MASH_ANI
      → (c2, g) ∈ cluster_database Mdb MASH_ANI → c1 = c2 :=
    fun _ _ _ h1 h2 => cluster_graph_unique h1 h2
  have hCg : ∀ c g, (c, g) ∈ cluster_database Mdb MASH_ANI → g ∈ Bdb.map BRow.genome := by
    intro c g hm
    by_contra hno
    have hz := hCcount g
    rw [if_neg hno] at hz
    exact (List.count_eq_zero.mp hz) (List.mem_map.mpr ⟨(c, g), hm, rfl⟩)
  have hmemC : ∀ g ∈ Bdb.map BRow.genome,
      ∃ c, (c, g) ∈ cluster_database Mdb MASH_ANI := by
    intro g hg
    have h1 := hCcount g
    rw [if_pos hg] at h1
    have hmem : g ∈ (cluster_database Mdb MASH_ANI).map Prod.snd := by
      by_contra hno
      rw [List.count_eq_zero.mpr hno] at h1
      cases h1
    obtain ⟨r, hr, he⟩ := List.mem_map.mp hmem
    exact ⟨r.1, by rw [show (r.1, g) = r from Prod.ext rfl he.symm]; exact hr⟩
  -- the merged Bdb and the org_lengths dictionary
  have hlookup : ∀ g ∈ Bdb.map BRow.genome, ∃ n, n ≠ 0
      ∧ ((mergeBC Bdb (cluster_database Mdb MASH_ANI)).map
          (fun r => (r.1.genome, fasta_length r.1.location))).lookup g = some n := by
    intro g hg
    obtain ⟨b, hb, rfl⟩ := List.mem_map.mp hg
    obtain ⟨c, hc⟩ := hmemC b.genome (List.mem_map_of_mem BRow.genome hb)
    have hpair : (b, c) ∈ mergeBC Bdb (cluster_database Mdb MASH_ANI) :=
      mem_mergeBC.mpr ⟨hb, hc⟩
    have hmem : (b.genome, fasta_length b.location)
        ∈ (mergeBC Bdb (cluster_database Mdb MASH_ANI)).map
          (fun r => (r.1.genome, fasta_length r.1.location)) :=
      List.mem_map_of_mem _ hpair
    obtain ⟨w, hw, hwmem⟩ := lookup_some_of_mem hmem
    obtain ⟨bc, hbc, hbce⟩ := List.mem_map.mp hwmem
    refine ⟨w, ?_, hw⟩
    have hb' : bc.1 ∈ Bdb := (mem_mergeBC (b := bc.1) (c := bc.2)).mp hbc |>.1
    have hwe : w = fasta_length bc.1.location := (congrArg Prod.snd hbce).symm
    rw [hwe]
    exact hflen bc.1 hb'
  -- the cluster list iterated by run_anin_on_clusters
  have hrcs : ∀ c, c ∈ uniqueF ((mergeBC Bdb (cluster_database Mdb MASH_ANI)).map Prod.snd)
      ↔ c ∈ uniqueF ((cluster_database Mdb MASH_ANI).map Prod.fst) := by
    intro c
    rw [mem_uniqueF, mem_uniqueF]
    constructor
    · intro hm
      obtain ⟨p, hp, he⟩ := List.mem_map.mp hm
      have := mem_mergeBC (b := p.1) (c := p.2) |>.mp (by rwa [show (p.1, p.2) = p from rfl])
      exact List.mem_map.mpr ⟨(p.2, p.1.genome), this.2, he ▸ rfl⟩
    · intro hm
      obtain ⟨r, hr, he⟩ := List.mem_map.mp hm
      have hrmem : (c, r.2) ∈ cluster_database Mdb MASH_ANI := by
        rw [show (c, r.2) = r from Prod.ext he.symm rfl]
        exact hr
      obtain ⟨b, hb, hbe⟩ := List.mem_map.mp (hCg c r.2 hrmem)
      have hpair : (b, c) ∈ mergeBC Bdb (cluster_database Mdb MASH_ANI) :=
        mem_mergeBC.mpr ⟨hb, by rwa [hbe]⟩
      exact List.mem_map.mpr ⟨(b, c), hpair, rfl⟩
  -- every cluster's delta directory parses into a table matching its files
  have hok : ∀ c ∈ uniqueF ((mergeBC Bdb (cluster_database Mdb MASH_ANI)).map Prod.snd),
      ∃ rows, process_deltadir (deltas c)
          ((mergeBC Bdb (cluster_database Mdb MASH_ANI)).map
            (fun r => (r.1.genome, fasta_length r.1.location))) = Except.ok rows
        ∧ rows.map (fun r => (r.querry, r.reference))
            = (deltas c).map (fun f => (f.qname, f.sname)) := by
    intro c hc
    have hcU := (hrcs c).mp hc
    obtain ⟨rows, flag, hcore, hmap⟩ := process_core_ok (deltas c) _
      (hparse c hcU)
      (fun f hf => by
        obtain ⟨hq, hs⟩ := hnames c hcU f hf
        exact ⟨hlookup f.qname (hCg c f.qname (mem_membersOf.mp hq)),
          hlookup f.sname (hCg c f.sname (mem_membersOf.mp hs))⟩)
    exact ⟨rows, process_deltadir_ok_of_core hcore, hmap⟩
  obtain ⟨Ndb, hN, hα, hβ⟩ := collectNdb_spec deltas
    ((mergeBC Bdb (cluster_database Mdb MASH_ANI)).map
      (fun r => (r.1.genome, fasta_length r.1.location)))
    (uniqueF ((mergeBC Bdb (cluster_database Mdb MASH_ANI)).map Prod.snd)) hok
  have hrun : run_anin_on_clusters Bdb (cluster_database Mdb MASH_ANI) deltas fasta_length
      = Except.ok Ndb := hN
  have hfinal : cluster_genomes Bdb Mdb deltas fasta_length MASH_ANI ANIn false false
      = Except.ok (cluster_anin_database (cluster_database Mdb MASH_ANI) Ndb
          ((99 : Rat) / 100) ((1 : Rat) / 2), Mdb, Ndb) := by
    show (run_anin_on_clusters Bdb (cluster_database Mdb MASH_ANI) deltas
        fasta_length).bind _ = _
    rw [hrun]
    rfl
  -- the tagged Ndb rows stay within their cluster's members
  have hα' : ∀ rc ∈ Ndb, rc.1.reference ∈ membersOf (cluster_database Mdb MASH_ANI) rc.2
      ∧ rc.1.querry ∈ membersOf (cluster_database Mdb MASH_ANI) rc.2 := by
    intro rc hrc
    obtain ⟨hcs, f, hf, hq, hr⟩ := hα rc hrc
    obtain ⟨hqm, hsm⟩ := hnames rc.2 ((hrcs rc.2).mp hcs) f hf
    exact ⟨hr ▸ hsm, hq ▸ hqm⟩
  -- each coarse cluster's fine table spans exactly its members
  have hda : ∀ c, ∀ r ∈ fineTable (cluster_database Mdb MASH_ANI) Ndb c,
      r.reference ∈ membersOf (cluster_database Mdb MASH_ANI) c
        ∧ r.querry ∈ membersOf (cluster_database Mdb MASH_ANI) c := by
    intro c r hr
    obtain ⟨tag, htag, href⟩ := mem_fineTable.mp hr
    obtain ⟨href', hq'⟩ := hα' (r, tag) htag
    have hceq : c = tag :=
      hCdisj c tag r.reference (mem_membersOf.mp href) (mem_membersOf.mp href')
    exact ⟨href, hceq ▸ hq'⟩
  have hdb : ∀ c ∈ uniqueF ((cluster_database Mdb MASH_ANI).map Prod.fst),
      ∀ g ∈ membersOf (cluster_database Mdb MASH_ANI) c,
        ∃ r ∈ fineTable (cluster_database Mdb MASH_ANI) Ndb c, r.reference = g := by
    intro c hc g hg
    obtain ⟨f, hf, hfs⟩ := hcover c hc g hg
    obtain ⟨rc, hrc, hrc2, hrcref, _⟩ := hβ c ((hrcs c).mpr hc) f hf
    refine ⟨rc.1, mem_fineTable.mpr ⟨rc.2, by rwa [show (rc.1, rc.2) = rc from rfl], ?_⟩, ?_⟩
    · rw [hrcref, hfs]
      exact hg
    · rw [hrcref, hfs]
  -- counting the genome column of the fine Table
  have hGdbcount : ∀ g ∈ Bdb.map BRow.genome,
      ((aninGdb (cluster_database Mdb MASH_ANI) Ndb ((99 : Rat) / 100)
        ((1 : Rat) / 2)).map Prod.fst).count g = 1 := by
    intro g hg
    obtain ⟨c0, hc0⟩ := hmemC g hg
    have hc0U : c0 ∈ uniqueF ((cluster_database Mdb MASH_ANI).map Prod.fst) := by
      rw [mem_uniqueF]
      exact List.mem_map.mpr ⟨(c0, g), hc0, rfl⟩
    rw [aninGdb, count_flatMap_fst]
    apply sum_indicator_of_unique nodup_uniqueF hc0U
    intro c hc
    have hnodes := fun x => @anin_nodes_iff _ _ ((1 : Rat) / 2) ((99 : Rat) / 100)
      (hda c) (hdb c hc) x
    rw [aninBlock_count hnodes g]
    by_cases he : c = c0
    · subst he
      rw [if_pos rfl, if_pos (mem_membersOf.mpr hc0)]
    · rw [if_neg he, if_neg (fun hm => he (hCdisj c c0 g (mem_membersOf.mp hm) hc0))]
  refine ⟨_, Ndb, hfinal, ?_, ?_, ?_⟩
  · intro g hg
    rw [cluster_anin_database, mergeGC_count, hGdbcount g hg, hCcount g, if_pos hg]
  · intro row hrow
    rw [cluster_anin_database] at hrow
    obtain ⟨gr, _, cr, hcr, hcg, rfl⟩ := mem_mergeGC hrow
    show gr.1 ∈ Bdb.map BRow.genome
    rw [← hcg]
    exact hCg cr.1 cr.2 (by rwa [show (cr.1, cr.2) = cr from rfl])
  · intro row hrow
    rw [cluster_anin_database] at hrow
    obtain ⟨gr, hgr, cr, _, _, rfl⟩ := mem_mergeGC hrow
    show ∃ (i j : Nat), gr.2 = toString i ++ "_" ++ toString j
    exact aninGdb_label hgr

/-- Concrete inputs for the C1 witness: two genomes, an all-vs-all mash
table, and all four pairwise delta files for the single coarse cluster. -/
def wBdb : List BRow := [⟨"A", "a.fa"⟩, ⟨"B", "b.fa"⟩]

def wMdb : List MRow :=
  [⟨"A", "A", (1 : Rat)⟩, ⟨"A", "B", mkRat 95 100⟩,
    ⟨"B", "A", mkRat 95 100⟩, ⟨"B", "B", (1 : Rat)⟩]

def wLines : List String := ["NUCMER", "1 11 1 11 2 0 0"]

def wDeltas : Nat → List DeltaFile := fun c =>
  if c = 0 then
    [⟨"A", "A", wLines⟩, ⟨"A", "B", wLines⟩, ⟨"B", "A", wLines⟩, ⟨"B", "B", wLines⟩]
  else []

def wLen : String → Nat := fun _ => 20

set_option maxRecDepth 40000 in
unseal Rat.mul Rat.inv Rat.sub Rat.add in
/-- C1 witness: the completeness theorem applied to the concrete run. -/
theorem C1_witness :
    ((wBdb.map BRow.genome).Nodup)
    ∧ (∀ g, g ∈ wMdb.map MRow.genome1 ↔ g ∈ wBdb.map BRow.genome)
    ∧ (∀ r ∈ wMdb, r.genome2 ∈ wBdb.map BRow.genome)
    ∧ (∀ b ∈ wBdb, wLen b.location ≠ 0)
    ∧ (∀ c ∈ uniqueF ((cluster_database wMdb (mkRat 9 10)).map Prod.fst),
        ∀ f ∈ wDeltas c, ∃ p, parse_delta f.lines = Except.ok p)
    ∧ (∀ c ∈ uniqueF ((cluster_database wMdb (mkRat 9 10)).map Prod.fst),
        ∀ f ∈ wDeltas c, f.qname ∈ membersOf (cluster_database wMdb (mkRat 9 10)) c
          ∧ f.sname ∈ membersOf (cluster_database wMdb (mkRat 9 10)) c)
    ∧ (∀ c ∈ uniqueF ((cluster_database wMdb (mkRat 9 10)).map Prod.fst),
        ∀ g ∈ membersOf (cluster_database wMdb (mkRat 9 10)) c,
          ∃ f ∈ wDeltas c, f.sname = g)
    ∧ ∃ F Ndb, cluster_genomes wBdb wMdb wDeltas wLen (mkRat 9 10) (mkRat 99 100)
          false false = Except.ok (F, wMdb, Ndb)
        ∧ (∀ g ∈ wBdb.map BRow.genome, (F.map FRow.genome).count g = 1)
        ∧ (∀ row ∈ F, row.genome ∈ wBdb.map BRow.genome)
        ∧ (∀ row ∈ F, ∃ (i j : Nat),
            row.ANIn_cluster = toString i ++ "_" ++ toString j) := by
  have hg1 : ∀ g, g ∈ wMdb.map MRow.genome1 ↔ g ∈ wBdb.map BRow.genome := by
    intro g
    show g ∈ ["A", "A", "B", "B"] ↔ g ∈ ["A", "B"]
    simp only [List.mem_cons, List.not_mem_nil, or_false]
    tauto
  have hparse : ∀ c ∈ uniqueF ((cluster_database wMdb (mkRat 9 10)).map Prod.fst),
      ∀ f ∈ wDeltas c, ∃ p, parse_delta f.lines = Except.ok p := by
    intro c hc f hf
    have hU : uniqueF ((cluster_database wMdb (mkRat 9 10)).map Prod.fst) = [0] := by
      decide
    rw [hU, List.mem_singleton] at hc
    subst hc
    have hf' : f ∈ [(⟨"A", "A", wLines⟩ : DeltaFile), ⟨"A", "B", wLines⟩,
        ⟨"B", "A", wLines⟩, ⟨"B", "B", wLines⟩] := hf
    simp only [List.mem_cons, List.not_mem_nil, or_false] at hf'
    rcases hf' with rfl | rfl | rfl | rfl
    · exact ⟨(10, 2), rfl⟩
    · exact ⟨(10, 2), rfl⟩
    · exact ⟨(10, 2), rfl⟩
    · exact ⟨(10, 2), rfl⟩
  refine ⟨by decide, hg1, by decide, by decide, hparse, by decide, by decide, ?_⟩
  exact C1_completeness wBdb wMdb wDeltas wLen (mkRat 9 10) (mkRat 99 100)
    (by decide) hg1 (by decide) (by decide) hparse (by decide) (by decide)
